import Mathlib

/-!
Verification development for the xelis-blockchain sources:
`src/core/blockchain.rs` (chain state machine) and
`xelis_daemon/src/p2p/peer_list.rs` (stored-peer policy store).

The Rust code is shallowly embedded: machine integers become `Nat`
(u64/u16/u8 values stay below their bound along every reachable path;
the only subtractions that can underflow in the source are modelled as
checked operations that return the dedicated `rustPanic` error, mirroring
a debug-mode panic), a `&mut self` method becomes a function returning
`Except err α × State` so that mutations made before an error stay
visible, and the cryptographic black boxes (hashing, signatures,
difficulty tests) are an explicit `Oracle` of functions, as the spec
places them out of scope.
-/

/-! ## Stored-peer policy store (`xelis_daemon/src/p2p/peer_list.rs`) -/

/-- `StoredPeerState` from peer_list.rs: Whitelist / Graylist / Blacklist. -/
inductive StoredPeerState where
  | Whitelist
  | Graylist
  | Blacklist
deriving DecidableEq, Repr

/-- `StoredPeer` from peer_list.rs. Timestamps are u64 seconds, `fail_count`
is a u8 (kept below 256 by the wrapping add), `local_port` a u16. -/
structure StoredPeer where
  first_seen : Nat
  last_seen : Nat
  last_connection_try : Nat
  fail_count : Nat
  local_port : Nat
  temp_ban_until : Option Nat
  state : StoredPeerState
deriving DecidableEq, Repr

/-- `StoredPeer::new(local_port, state)`: both seen-fields are the current
time (passed explicitly as `now`), no fails, no temp ban. -/
def StoredPeer.new (now : Nat) (local_port : Nat) (state : StoredPeerState) : StoredPeer :=
  { first_seen := now
    last_seen := now
    last_connection_try := 0
    fail_count := 0
    local_port := local_port
    temp_ban_until := none
    state := state }

/-- `PeerList::increase_fail_count_for_stored_peer(ip, temp_ban)` projected
onto the single cache slot for `ip` (`rec = none` means the ip is unknown).
`LIMIT` is `PEER_FAIL_TO_CONNECT_LIMIT`, `BAN` is
`PEER_TEMP_BAN_TIME_ON_CONNECT` (config constants, not in src/).
Whitelisted records are left untouched (the store is not written). -/
def increase_fail_count_for_stored_peer (LIMIT BAN now : Nat) (rec : Option StoredPeer)
    (temp_ban : Bool) : Option StoredPeer :=
  let sp := match rec with
    | some sp => sp
    | none => StoredPeer.new now 0 StoredPeerState.Graylist
  let fail_count := sp.fail_count
  if sp.state ≠ StoredPeerState.Whitelist then
    let sp := if temp_ban = true ∧ fail_count ≠ 0 ∧ fail_count % LIMIT = 0 then
        { sp with temp_ban_until := some (now + BAN) }
      else sp
    some { sp with fail_count := (fail_count + 1) % 256 }
  else
    rec

/-- Iterate `increase_fail_count_for_stored_peer` `k` times with `temp_ban`
set and no time passing. -/
def iterate_increase_fail_count (LIMIT BAN now : Nat) (rec : Option StoredPeer) : Nat → Option StoredPeer
  | 0 => rec
  | k + 1 => increase_fail_count_for_stored_peer LIMIT BAN now
      (iterate_increase_fail_count LIMIT BAN now rec k) true

/-- `PeerList::temp_ban_address(ip, seconds)` projected onto the cache slot
for `ip`: an existing record gets `temp_ban_until = now + seconds`; an
unknown ip gets a brand-new Graylist record (whose `temp_ban_until` is
`none` -- the source never sets the ban in this branch). -/
def temp_ban_address (now : Nat) (rec : Option StoredPeer) (seconds : Nat) : Option StoredPeer :=
  match rec with
  | some sp => some { sp with temp_ban_until := some (now + seconds) }
  | none => some (StoredPeer.new now 0 StoredPeerState.Graylist)

/-! ## Byte serializer for StoredPeer

Modelled from the spec: the `Reader`/`Writer` primitives live in the
`xelis_common` crate, which is not under src/. The spec fixes them as a
byte-exact serializer: integers little-endian at their width, `Option`
encoded as `0x00` for none and `0x01` followed by the payload for some.
Bytes are `Nat` values below 256. -/

/-- Reader errors of the external serializer: `InvalidValue` for a bad
tag byte, `eof` when the input is too short. -/
inductive ReaderErr where
  | invalidValue
  | eof
deriving DecidableEq, Repr

/-- Write an unsigned integer as `w` little-endian bytes. -/
def writeLE : Nat → Nat → List Nat
  | 0, _ => []
  | w + 1, n => n % 256 :: writeLE w (n / 256)

/-- Read `w` little-endian bytes back into an unsigned integer. -/
def readLE : Nat → List Nat → Except ReaderErr (Nat × List Nat)
  | 0, bs => Except.ok (0, bs)
  | _ + 1, [] => Except.error ReaderErr.eof
  | w + 1, b :: bs =>
    match readLE w bs with
    | Except.ok (n, rest) => Except.ok (b + 256 * n, rest)
    | Except.error e => Except.error e

/-- Writer for `Option<u64>`: `0x00` for none, `0x01` then the payload. -/
def writeOptU64 : Option Nat → List Nat
  | none => [0]
  | some n => 1 :: writeLE 8 n

/-- Reader for `Option<u64>`. -/
def readOptU64 : List Nat → Except ReaderErr (Option Nat × List Nat)
  | [] => Except.error ReaderErr.eof
  | 0 :: bs => Except.ok (none, bs)
  | 1 :: bs =>
    match readLE 8 bs with
    | Except.ok (n, rest) => Except.ok (some n, rest)
    | Except.error e => Except.error e
  | _ :: _ => Except.error ReaderErr.invalidValue

/-- `Serializer::write` for `StoredPeerState` (peer_list.rs): one byte,
0 Whitelist, 1 Graylist, 2 Blacklist. -/
def StoredPeerState.write : StoredPeerState → List Nat
  | StoredPeerState.Whitelist => [0]
  | StoredPeerState.Graylist => [1]
  | StoredPeerState.Blacklist => [2]

/-- `Serializer::read` for `StoredPeerState`: any byte other than 0, 1, 2
is a `ReaderError::InvalidValue`. -/
def StoredPeerState.read : List Nat → Except ReaderErr (StoredPeerState × List Nat)
  | [] => Except.error ReaderErr.eof
  | 0 :: bs => Except.ok (StoredPeerState.Whitelist, bs)
  | 1 :: bs => Except.ok (StoredPeerState.Graylist, bs)
  | 2 :: bs => Except.ok (StoredPeerState.Blacklist, bs)
  | _ :: _ => Except.error ReaderErr.invalidValue

/-- `Serializer::write` for `StoredPeer` (peer_list.rs): the seven fields
in declaration order. -/
def StoredPeer.write (p : StoredPeer) : List Nat :=
  writeLE 8 p.first_seen ++ writeLE 8 p.last_seen ++ writeLE 8 p.last_connection_try ++
    writeLE 1 p.fail_count ++ writeLE 2 p.local_port ++ writeOptU64 p.temp_ban_until ++
    p.state.write

/-- `Serializer::read` for `StoredPeer`: the seven fields in order. -/
def StoredPeer.read (bs : List Nat) : Except ReaderErr (StoredPeer × List Nat) :=
  match readLE 8 bs with
  | Except.error e => Except.error e
  | Except.ok (first_seen, bs) =>
    match readLE 8 bs with
    | Except.error e => Except.error e
    | Except.ok (last_seen, bs) =>
      match readLE 8 bs with
      | Except.error e => Except.error e
      | Except.ok (last_connection_try, bs) =>
        match readLE 1 bs with
        | Except.error e => Except.error e
        | Except.ok (fail_count, bs) =>
          match readLE 2 bs with
          | Except.error e => Except.error e
          | Except.ok (local_port, bs) =>
            match readOptU64 bs with
            | Except.error e => Except.error e
            | Except.ok (temp_ban_until, bs) =>
              match StoredPeerState.read bs with
              | Except.error e => Except.error e
              | Except.ok (state, bs) =>
                Except.ok ({ first_seen, last_seen, last_connection_try,
                             fail_count, local_port, temp_ban_until, state }, bs)

/-- Well-formedness of a `StoredPeer` value: every field fits its Rust
integer width. -/
def StoredPeer.Wf (p : StoredPeer) : Prop :=
  p.first_seen < 2 ^ 64 ∧ p.last_seen < 2 ^ 64 ∧ p.last_connection_try < 2 ^ 64 ∧
    p.fail_count < 256 ∧ p.local_port < 2 ^ 16 ∧
    (∀ t, p.temp_ban_until = some t → t < 2 ^ 64)

/-! ## Chain data model (`src/core/blockchain.rs`)

Hashes and public keys are opaque fixed-width values; both become `Nat`.
The hash functions, signature verification, serialized sizes and the
difficulty engine (`core/difficulty.rs` is not under src/; the spec keeps
it abstract apart from check/calculate signatures) are collected in an
`Oracle` of deterministic functions. -/

abbrev Hash := Nat

abbrev PublicKey := Nat

/-- One output of a `Normal` transaction payload. `dest` embeds the Rust
field `to`, which is a reserved token in Lean. -/
structure TxOut where
  dest : PublicKey
  amount : Nat
deriving DecidableEq, Repr

/-- `TransactionData` variants used by blockchain.rs. -/
inductive TransactionData where
  | Registration
  | Coinbase (block_reward : Nat) (fee_reward : Nat)
  | Normal (outs : List TxOut)
  | Burn (amount : Nat)
deriving DecidableEq, Repr

/-- `Transaction`: version, sender key, fee, nonce, payload. The struct
itself lives in `core/transaction.rs` (not under src/); the fields are the
ones blockchain.rs reads. `hasSignature` models `has_signature()`. -/
structure Transaction where
  version : Nat
  sender : PublicKey
  fee : Nat
  nonce : Nat
  hasSignature : Bool
  data : TransactionData
deriving DecidableEq, Repr

/-- Account record: balance and nonce, both u64. -/
structure Account where
  balance : Nat
  nonce : Nat
deriving DecidableEq, Repr

/-- Block header as used by blockchain.rs. -/
structure Block where
  height : Nat
  timestamp : Nat
  previous_hash : Hash
  difficulty : Nat
  nonce : Nat
  miner_tx : Transaction
  txs_hashes : List Hash
deriving DecidableEq, Repr

/-- `CompleteBlock`: header plus the full transactions. -/
structure CompleteBlock where
  block : Block
  transactions : List Transaction
deriving DecidableEq, Repr

/-- Configuration constants of `config.rs` (not under src/; the spec lists
them as immutable per-build constants without fixing values, so they are
parameters of the model). -/
structure Config where
  MAX_BLOCK_SIZE : Nat
  MAX_SUPPLY : Nat
  EMISSION_SPEED_FACTOR : Nat
  FEE_PER_KB : Nat
  REGISTRATION_DIFFICULTY : Nat
  DEV_FEE_PERCENT : Nat
  MINIMUM_DIFFICULTY : Nat

/-- The cryptographic and serialization black boxes: hash functions,
serialized sizes, signature verification, and the difficulty engine.
Modelled from the spec: these are deterministic external operations. -/
structure Oracle where
  txHash : Transaction → Hash
  txSize : Transaction → Nat
  blockHash : CompleteBlock → Hash
  blockSize : CompleteBlock → Nat
  verifySignature : Transaction → Bool
  checkDifficulty : Hash → Nat → Bool
  calculateDifficulty : CompleteBlock → CompleteBlock → Nat

/-- `BlockchainError` constructors used by the embedded functions, with
their payloads. `rustPanic` models a Rust panic (an out-of-bounds index or
a checked-subtraction underflow), which is not a returnable error in the
source. -/
inductive BlockchainError where
  | InvalidBlockHeight (expected got : Nat)
  | InvalidDifficulty (expected got : Nat)
  | TimestampIsInFuture (now got : Nat)
  | InvalidPreviousBlockHash (got expected : Hash)
  | TimestampIsLessThanParent (got : Nat)
  | InvalidBlockTxs (expected got : Nat)
  | TxAlreadyInBlock (h : Hash)
  | InvalidTxInBlock (h : Hash)
  | DuplicateRegistration (k : PublicKey)
  | AddressAlreadyRegistered (k : PublicKey)
  | AddressNotRegistered (k : PublicKey)
  | InvalidTransactionSignature
  | InvalidTransactionNonce (expected got : Nat)
  | InvalidTransactionToSender (h : Hash)
  | InvalidTxFee (expected got : Nat)
  | InvalidTxRegistrationPoW (h : Hash)
  | InvalidBlockReward (expected got : Nat)
  | InvalidFeeReward (expected got : Nat)
  | InvalidBlockSize (max got : Nat)
  | InvalidMinerTx
  | CoinbaseTxNotAllowed (h : Hash)
  | TxEmpty (h : Hash)
  | NotEnoughFunds (k : PublicKey) (amount : Nat)
  | rustPanic
deriving DecidableEq, Repr

/-- The chain state owned by `Blockchain`: block list, height/supply
scalars, top hash, next difficulty, mempool and account map. HashMaps
become association lists (first match wins). -/
structure Chain where
  blocks : List CompleteBlock
  height : Nat
  supply : Nat
  top_hash : Hash
  difficulty : Nat
  mempool : List (Hash × Transaction)
  accounts : List (PublicKey × Account)
  dev_address : PublicKey
deriving DecidableEq, Repr

/-- `HashMap::get` on the account map: first matching key. -/
def findAcc : List (PublicKey × Account) → PublicKey → Option Account
  | [], _ => none
  | (k, a) :: rest, key => if k = key then some a else findAcc rest key

/-- In-place update of the first entry with the given key (the effect of
mutating through `HashMap::get_mut`). -/
def updAcc : List (PublicKey × Account) → PublicKey → Account → List (PublicKey × Account)
  | [], _, _ => []
  | (k, a) :: rest, key, v => if k = key then (k, v) :: rest else (k, a) :: updAcc rest key v

/-- `HashMap::insert`: replace the entry if the key is present, otherwise
add a new one. -/
def insAcc (l : List (PublicKey × Account)) (key : PublicKey) (v : Account) :
    List (PublicKey × Account) :=
  if (findAcc l key).isSome then updAcc l key v else l ++ [(key, v)]

/-- Sum of all account balances. -/
def sumBal (l : List (PublicKey × Account)) : Nat :=
  (l.map (fun p => p.2.balance)).sum

/-- `Blockchain::new()` just before the genesis block is applied: empty
block list, zero height and supply, zero top hash, minimum difficulty, and
the dev account registered at `{balance 0, nonce 0}` (this is the
`register_account(dev_address)` step of `create_genesis_block`). -/
def fresh_chain (cfg : Config) (dev : PublicKey) : Chain :=
  { blocks := []
    height := 0
    supply := 0
    top_hash := 0
    difficulty := cfg.MINIMUM_DIFFICULTY
    mempool := []
    accounts := [(dev, { balance := 0, nonce := 0 })]
    dev_address := dev }

def TransactionData.isRegistration : TransactionData → Bool
  | TransactionData.Registration => true
  | _ => false

def TransactionData.isCoinbase : TransactionData → Bool
  | TransactionData.Coinbase _ _ => true
  | _ => false

def TransactionData.isBurn : TransactionData → Bool
  | TransactionData.Burn _ => true
  | _ => false

/-- `Transaction::require_signature()`. Modelled from the spec:
`core/transaction.rs` is not under src/. The spec's verification contract
(4.5) demands a signature for the funded variants and describes Coinbase
as unsigned and Registration as accepted on account-absence plus
hash-PoW alone, so exactly `Normal` and `Burn` require one. -/
def requireSignature : TransactionData → Bool
  | TransactionData.Normal _ => true
  | TransactionData.Burn _ => true
  | _ => false

/-- `get_block_reward(supply)` from blockchain.rs:
`(MAX_SUPPLY - supply) >> EMISSION_SPEED_FACTOR`. -/
def get_block_reward (cfg : Config) (supply : Nat) : Nat :=
  (cfg.MAX_SUPPLY - supply) >>> cfg.EMISSION_SPEED_FACTOR

/-- `calculate_tx_fee(tx_size)` from blockchain.rs: a started kilobyte
counts as a full one. -/
def calculate_tx_fee (cfg : Config) (tx_size : Nat) : Nat :=
  (tx_size / 1024 + if tx_size % 1024 ≠ 0 then 1 else 0) * cfg.FEE_PER_KB

/-- `get_block_at_height(height)` from blockchain.rs: the guard rejects
only `height > self.get_height()`, then indexes `self.blocks[height]`;
an index at or past `blocks.len()` is a Rust panic (`rustPanic`). -/
def get_block_at_height (c : Chain) (height : Nat) : Except BlockchainError CompleteBlock :=
  if height > c.height then
    Except.error (BlockchainError.InvalidBlockHeight c.height height)
  else
    match c.blocks.get? height with
    | some b => Except.ok b
    | none => Except.error BlockchainError.rustPanic

/-! ## Transaction verification (`verify_transaction_with_hash`) -/

/-- The output loop inside the `Normal` arm of
`verify_transaction_with_hash`: accumulates `total_coins` (seeded with the
fee), rejecting an output to the sender itself or to an unregistered
receiver. The amount is added before the checks, as in the source. -/
def checkOutputs (c : Chain) (sender : PublicKey) (h : Hash) :
    List TxOut → Nat → Except BlockchainError Nat
  | [], total => Except.ok total
  | o :: rest, total =>
    let total := total + o.amount
    if o.dest = sender then Except.error (BlockchainError.InvalidTransactionToSender h)
    else if (findAcc c.accounts o.dest).isNone then
      Except.error (BlockchainError.AddressNotRegistered o.dest)
    else checkOutputs c sender h rest total

/-- `Blockchain::verify_transaction_with_hash(tx, hash, disable_nonce_check)`
from blockchain.rs, lines 443-512. The final catch-all arm of the Rust
match is a `panic!`, modelled as `rustPanic`; it is unreachable because
`Registration` returns earlier. -/
def verify_transaction_with_hash (cfg : Config) (O : Oracle) (c : Chain) (tx : Transaction)
    (h : Hash) (disable_nonce_check : Bool) : Except BlockchainError Unit :=
  if requireSignature tx.data = true ∧ (tx.hasSignature = false ∨ O.verifySignature tx = false) then
    Except.error BlockchainError.InvalidTransactionSignature
  else if (tx.data.isRegistration = true ∨ tx.data.isCoinbase = true) ∧ tx.fee ≠ 0 then
    Except.error (BlockchainError.InvalidTxFee 0 tx.fee)
  else if ¬(tx.data.isRegistration = true ∨ tx.data.isCoinbase = true) ∧
      tx.fee < calculate_tx_fee cfg (O.txSize tx) then
    Except.error (BlockchainError.InvalidTxFee (calculate_tx_fee cfg (O.txSize tx)) tx.fee)
  else if tx.data.isRegistration = true then
    if (findAcc c.accounts tx.sender).isSome = true ∧ disable_nonce_check = false then
      Except.error (BlockchainError.AddressAlreadyRegistered tx.sender)
    else if O.checkDifficulty h cfg.REGISTRATION_DIFFICULTY = false then
      Except.error (BlockchainError.InvalidTxRegistrationPoW h)
    else Except.ok ()
  else
    match findAcc c.accounts tx.sender with
    | none => Except.error (BlockchainError.AddressNotRegistered tx.sender)
    | some account =>
      if disable_nonce_check = false ∧ account.nonce ≠ tx.nonce then
        Except.error (BlockchainError.InvalidTransactionNonce account.nonce tx.nonce)
      else
        match tx.data with
        | TransactionData.Normal outs =>
          if outs.length = 0 then Except.error (BlockchainError.TxEmpty h)
          else
            match checkOutputs c tx.sender h outs tx.fee with
            | Except.error e => Except.error e
            | Except.ok total =>
              if account.balance < total then
                Except.error (BlockchainError.NotEnoughFunds tx.sender total)
              else Except.ok ()
        | TransactionData.Burn amount =>
          if account.balance < amount + tx.fee then
            Except.error (BlockchainError.NotEnoughFunds tx.sender (amount + tx.fee))
          else Except.ok ()
        | TransactionData.Coinbase _ _ =>
          Except.error (BlockchainError.CoinbaseTxNotAllowed h)
        | TransactionData.Registration => Except.error BlockchainError.rustPanic

/-! ## Transaction execution (`execute_transaction`) -/

/-- The credit loop of the `Normal` arm of `execute_transaction`: each
receiver is credited in order through `get_mut_account` (an unregistered
receiver aborts mid-loop, keeping the credits already applied), while
`total` accumulates the amounts on top of the fee. -/
def creditOutputs (c : Chain) : List TxOut → Nat → Except BlockchainError Unit × Nat × Chain
  | [], total => (Except.ok (), total, c)
  | o :: rest, total =>
    match findAcc c.accounts o.dest with
    | none => (Except.error (BlockchainError.AddressNotRegistered o.dest), total, c)
    | some a =>
      creditOutputs
        { c with accounts := updAcc c.accounts o.dest { a with balance := a.balance + o.amount } }
        rest (total + o.amount)

/-- Debit `amount` from the sender and bump its nonce: the shared tail of
the `Burn` and `Normal` arms of `execute_transaction`. The `u64`
subtraction `balance -= amount` is checked: underflow is a Rust panic. -/
def debitAndBumpNonce (c : Chain) (sender : PublicKey) (amount : Nat) :
    Except BlockchainError Unit × Chain :=
  match findAcc c.accounts sender with
  | none => (Except.error (BlockchainError.AddressNotRegistered sender), c)
  | some a =>
    if a.balance < amount then (Except.error BlockchainError.rustPanic, c)
    else
      (Except.ok (),
        { c with accounts := (updAcc c.accounts sender
            { balance := a.balance - amount, nonce := a.nonce + 1 }) })

/-- `Blockchain::execute_transaction(tx)` from blockchain.rs, lines
514-560. `Registration` registers the sender and returns before the nonce
increment; `Coinbase` splits off the dev fee when `DEV_FEE_PERCENT != 0`
(the `block_reward -= dev_fee` subtraction is checked) and credits the
miner, also skipping the nonce increment. -/
def execute_transaction (cfg : Config) (c : Chain) (tx : Transaction) :
    Except BlockchainError Unit × Chain :=
  match tx.data with
  | TransactionData.Burn burn_amount =>
    debitAndBumpNonce c tx.sender (burn_amount + tx.fee)
  | TransactionData.Normal outs =>
    match creditOutputs c outs tx.fee with
    | (Except.error e, _, c) => (Except.error e, c)
    | (Except.ok _, total, c) => debitAndBumpNonce c tx.sender total
  | TransactionData.Registration =>
    (Except.ok (),
      { c with accounts := insAcc c.accounts tx.sender { balance := 0, nonce := 0 } })
  | TransactionData.Coinbase block_reward fee_reward =>
    if cfg.DEV_FEE_PERCENT ≠ 0 then
      let dev_fee := block_reward * cfg.DEV_FEE_PERCENT / 100
      match findAcc c.accounts c.dev_address with
      | none => (Except.error (BlockchainError.AddressNotRegistered c.dev_address), c)
      | some devAcc =>
        let c := { c with accounts := (updAcc c.accounts c.dev_address
            { devAcc with balance := devAcc.balance + dev_fee }) }
        if block_reward < dev_fee then (Except.error BlockchainError.rustPanic, c)
        else
          match findAcc c.accounts tx.sender with
          | none => (Except.error (BlockchainError.AddressNotRegistered tx.sender), c)
          | some a =>
            (Except.ok (),
              { c with accounts := (updAcc c.accounts tx.sender
                  { a with balance := a.balance + (block_reward - dev_fee) + fee_reward }) })
    else
      match findAcc c.accounts tx.sender with
      | none => (Except.error (BlockchainError.AddressNotRegistered tx.sender), c)
      | some a =>
        (Except.ok (),
          { c with accounts := (updAcc c.accounts tx.sender
              { a with balance := a.balance + block_reward + fee_reward }) })

/-! ## Block validation and application (`add_new_block`) -/

/-- The mempool-cleanup loop of `add_new_block` (lines 400-407): each
included hash is removed from the mempool, a missing entry being ignored.
`HashMap::remove` drops the single matching entry. -/
def removeMempoolTxs (m : List (Hash × Transaction)) (hashes : List Hash) :
    List (Hash × Transaction) :=
  hashes.foldl (fun m h => m.eraseP (fun p => p.1 == h)) m

/-- Header checks of `add_new_block` (lines 300-319): height, difficulty
(equality with the stored one and hash PoW), future timestamp, and for a
non-genesis chain the parent hash and parent timestamp. -/
def headerChecks (O : Oracle) (now : Nat) (c : Chain) (b : CompleteBlock) :
    Except BlockchainError Unit :=
  let block_hash := O.blockHash b
  if c.height ≠ b.block.height then
    Except.error (BlockchainError.InvalidBlockHeight c.height b.block.height)
  else if c.difficulty ≠ b.block.difficulty ∨ O.checkDifficulty block_hash c.difficulty = false then
    Except.error (BlockchainError.InvalidDifficulty c.difficulty b.block.difficulty)
  else if b.block.timestamp > now then
    Except.error (BlockchainError.TimestampIsInFuture now b.block.timestamp)
  else if c.height ≠ 0 then
    match get_block_at_height c (c.height - 1) with
    | Except.error e => Except.error e
    | Except.ok previous_block =>
      if O.blockHash previous_block ≠ b.block.previous_hash then
        Except.error (BlockchainError.InvalidPreviousBlockHash b.block.previous_hash
          (O.blockHash previous_block))
      else if previous_block.block.timestamp > b.block.timestamp then
        Except.error (BlockchainError.TimestampIsLessThanParent b.block.timestamp)
      else Except.ok ()
  else Except.ok ()

/-- The per-transaction loop of the transaction-set scope of
`add_new_block` (lines 331-359): duplicate-hash cache, membership of the
hash in the header list, no Coinbase, per-sender Registration
uniqueness, then full verification; fees and sizes accumulate. Returns
the final cache and the fee and size totals. -/
def txChecksLoop (cfg : Config) (O : Oracle) (c : Chain) (hashes : List Hash) :
    List Transaction → List Hash → List PublicKey → Nat → Nat →
      Except BlockchainError (List Hash × Nat × Nat)
  | [], cache, _, total_fees, total_size => Except.ok (cache, total_fees, total_size)
  | tx :: rest, cache, registrations, total_fees, total_size =>
    let tx_hash := O.txHash tx
    if tx_hash ∈ cache then Except.error (BlockchainError.TxAlreadyInBlock tx_hash)
    else if tx_hash ∉ hashes then Except.error (BlockchainError.InvalidTxInBlock tx_hash)
    else
      match tx.data with
      | TransactionData.Coinbase _ _ => Except.error (BlockchainError.InvalidTxInBlock tx_hash)
      | TransactionData.Registration =>
        if tx.sender ∈ registrations then
          Except.error (BlockchainError.DuplicateRegistration tx.sender)
        else
          match verify_transaction_with_hash cfg O c tx tx_hash false with
          | Except.error e => Except.error e
          | Except.ok _ =>
            txChecksLoop cfg O c hashes rest (cache ++ [tx_hash]) (tx.sender :: registrations)
              (total_fees + tx.fee) (total_size + O.txSize tx)
      | _ =>
        match verify_transaction_with_hash cfg O c tx tx_hash false with
        | Except.error e => Except.error e
        | Except.ok _ =>
          txChecksLoop cfg O c hashes rest (cache ++ [tx_hash]) registrations
            (total_fees + tx.fee) (total_size + O.txSize tx)

/-- Miner-transaction checks of `add_new_block` (lines 370-397): the miner
tx must be a Coinbase from a registered account, feeless and unsigned,
with `block_reward` matching the emission at the current supply and
`fee_reward` matching the included fees. -/
def minerChecks (cfg : Config) (c : Chain) (b : CompleteBlock) (total_fees : Nat) :
    Except BlockchainError Unit :=
  let block_reward := get_block_reward cfg c.supply
  match b.block.miner_tx.data with
  | TransactionData.Coinbase data_block_reward data_fee_reward =>
    if (findAcc c.accounts b.block.miner_tx.sender).isNone then
      Except.error (BlockchainError.AddressNotRegistered b.block.miner_tx.sender)
    else if b.block.miner_tx.fee ≠ 0 then
      Except.error (BlockchainError.InvalidTxFee 0 b.block.miner_tx.fee)
    else if b.block.miner_tx.hasSignature then
      Except.error BlockchainError.InvalidTransactionSignature
    else if data_block_reward ≠ block_reward ∨ data_fee_reward ≠ total_fees then
      Except.error (BlockchainError.InvalidBlockReward (block_reward + total_fees)
        (data_block_reward + data_fee_reward))
    else if data_fee_reward ≠ total_fees then
      Except.error (BlockchainError.InvalidFeeReward total_fees data_fee_reward)
    else Except.ok ()
  | _ => Except.error BlockchainError.InvalidMinerTx

/-- All validation of `add_new_block` before any mutation (lines 300-397):
header checks, the transaction-set scope (length equality, the per-tx
loop, the block-size bound, and the cache-cardinality recheck), then the
miner-tx checks. Returns the accumulated `total_fees`. -/
def blockChecks (cfg : Config) (O : Oracle) (now : Nat) (c : Chain) (b : CompleteBlock) :
    Except BlockchainError Nat :=
  match headerChecks O now c b with
  | Except.error e => Except.error e
  | Except.ok _ =>
    if b.block.txs_hashes.length ≠ b.transactions.length then
      Except.error (BlockchainError.InvalidBlockTxs b.block.txs_hashes.length
        b.transactions.length)
    else
      match txChecksLoop cfg O c b.block.txs_hashes b.transactions [] [] 0 0 with
      | Except.error e => Except.error e
      | Except.ok (cache, total_fees, total_size) =>
        if O.blockSize b + total_size > cfg.MAX_BLOCK_SIZE then
          Except.error (BlockchainError.InvalidBlockSize cfg.MAX_BLOCK_SIZE
            (O.blockSize b + total_size))
        else if cache.length ≠ b.transactions.length ∨ cache.length ≠ b.block.txs_hashes.length then
          Except.error (BlockchainError.InvalidBlockTxs b.block.txs_hashes.length cache.length)
        else
          match minerChecks cfg c b total_fees with
          | Except.error e => Except.error e
          | Except.ok _ => Except.ok total_fees

/-- The transaction-execution loop of `add_new_block` (lines 409-411):
execute every block transaction in order, stopping at the first failure
but keeping the mutations already applied. -/
def execTxsRun (cfg : Config) (c : Chain) : List Transaction → Except BlockchainError Unit × Chain
  | [] => (Except.ok (), c)
  | tx :: rest =>
    match execute_transaction cfg c tx with
    | (Except.ok _, c) => execTxsRun cfg c rest
    | (Except.error e, c) => (Except.error e, c)

/-- `Blockchain::add_new_block(block)` from blockchain.rs, lines 298-437.
After the pure validation (`blockChecks`) the mempool is drained of the
included hashes, the transactions and then the miner tx are executed, the
difficulty is recomputed when `height > 2` (through the fallible
`get_block_at_height`), the block-time log reads the top block again when
`height > 0` (the `?` on `get_top_block`), and finally height, top hash,
supply and the block list are committed. Mutations stay visible on an
error return, as through `&mut self`. -/
def add_new_block (cfg : Config) (O : Oracle) (now : Nat) (c : Chain) (b : CompleteBlock) :
    Except BlockchainError Unit × Chain :=
  match blockChecks cfg O now c b with
  | Except.error e => (Except.error e, c)
  | Except.ok _total_fees =>
    let block_reward := get_block_reward cfg c.supply
    let c := { c with mempool := removeMempoolTxs c.mempool b.block.txs_hashes }
    match execTxsRun cfg c b.transactions with
    | (Except.error e, c) => (Except.error e, c)
    | (Except.ok _, c) =>
      match execute_transaction cfg c b.block.miner_tx with
      | (Except.error e, c) => (Except.error e, c)
      | (Except.ok _, c) =>
        let withDifficulty : Except BlockchainError Chain :=
          if c.height > 2 then
            match get_block_at_height c (c.height - 1) with
            | Except.error e => Except.error e
            | Except.ok previous => Except.ok { c with difficulty := O.calculateDifficulty previous b }
          else Except.ok c
        match withDifficulty with
        | Except.error e => (Except.error e, c)
        | Except.ok c =>
          let topBlock : Except BlockchainError Unit :=
            if c.height > 0 then
              match get_block_at_height c (c.height - 1) with
              | Except.error e => Except.error e
              | Except.ok _ => Except.ok ()
            else Except.ok ()
          match topBlock with
          | Except.error e => (Except.error e, c)
          | Except.ok _ =>
            (Except.ok (),
              { c with height := c.height + 1, top_hash := O.blockHash b,
                       supply := c.supply + block_reward, blocks := c.blocks ++ [b] })

/-- Apply a sequence of blocks by successive `add_new_block` calls, each
with its own wall-clock reading; `Except.ok` means every call succeeded. -/
def applyBlocks (cfg : Config) (O : Oracle) : Chain → List (Nat × CompleteBlock) →
    Except BlockchainError Chain
  | c, [] => Except.ok c
  | c, (now, b) :: rest =>
    match add_new_block cfg O now c b with
    | (Except.ok _, c) => applyBlocks cfg O c rest
    | (Except.error e, _) => Except.error e

/-- The `block_reward` a block's Coinbase miner tx carries. -/
def coinbaseReward (b : CompleteBlock) : Nat :=
  match b.block.miner_tx.data with
  | TransactionData.Coinbase block_reward _ => block_reward
  | _ => 0

/-- Sum of the miner-tx block rewards over a block list. -/
def sumRewards (bs : List CompleteBlock) : Nat :=
  (bs.map coinbaseReward).sum

/-- Total fees of a transaction list. -/
def feeSum (txs : List Transaction) : Nat :=
  (txs.map (fun tx => tx.fee)).sum

/-- The sender of a Registration transaction, `none` otherwise. -/
def regSender (tx : Transaction) : Option PublicKey :=
  match tx.data with
  | TransactionData.Registration => some tx.sender
  | _ => none

/-! ## Concrete build and scenario used by the witnesses

A small concrete configuration and oracle (injective enough for the two
block transactions used), a fresh chain whose dev address is key 99, and
one block holding two Registration transactions whose header hash list is
in the opposite order of the transaction list. -/

/-- A concrete configuration: 1 KiB max supply, emission shift 2, no fees,
no dev cut. -/
def cfg0 : Config :=
  { MAX_BLOCK_SIZE := 1000
    MAX_SUPPLY := 1024
    EMISSION_SPEED_FACTOR := 2
    FEE_PER_KB := 0
    REGISTRATION_DIFFICULTY := 7
    DEV_FEE_PERCENT := 0
    MINIMUM_DIFFICULTY := 1 }

/-- A concrete oracle: a transaction hashes to its sender key, every hash
passes every difficulty target, sizes are 1. -/
def O0 : Oracle :=
  { txHash := fun tx => tx.sender
    txSize := fun _ => 1
    blockHash := fun _ => 42
    blockSize := fun _ => 1
    verifySignature := fun _ => true
    checkDifficulty := fun _ _ => true
    calculateDifficulty := fun _ _ => 1 }

/-- The fresh chain with dev key 99. -/
def chain0 : Chain := fresh_chain cfg0 99

/-- Registration transaction for key 1. -/
def txReg1 : Transaction :=
  { version := 0, sender := 1, fee := 0, nonce := 0, hasSignature := false,
    data := TransactionData.Registration }

/-- Registration transaction for key 2. -/
def txReg2 : Transaction :=
  { version := 0, sender := 2, fee := 0, nonce := 0, hasSignature := false,
    data := TransactionData.Registration }

/-- Coinbase miner tx of the scenario block: reward 256 = (1024 - 0) >> 2,
no fees collected. -/
def minerTx0 : Transaction :=
  { version := 0, sender := 99, fee := 0, nonce := 0, hasSignature := false,
    data := TransactionData.Coinbase 256 0 }

/-- The scenario block at height 0: its `txs_hashes` list `[2, 1]` is a
permutation, but not the positional image, of its transaction list
`[txReg1, txReg2]` (whose hashes are `[1, 2]`). -/
def block0 : CompleteBlock :=
  { block :=
      { height := 0, timestamp := 5, previous_hash := 0, difficulty := 1, nonce := 0,
        miner_tx := minerTx0, txs_hashes := [2, 1] }
    transactions := [txReg1, txReg2] }

/-- The chain after applying `block0` to `chain0`: height 1, supply 256
credited to the miner (dev key 99), both registered accounts at zero. -/
def chain1 : Chain :=
  { blocks := [block0]
    height := 1
    supply := 256
    top_hash := 42
    difficulty := 1
    mempool := []
    accounts := [(99, { balance := 256, nonce := 0 }),
                 (1, { balance := 0, nonce := 0 }),
                 (2, { balance := 0, nonce := 0 })]
    dev_address := 99 }

/-- A Registration transaction carrying a nonzero fee. -/
def txRegFee : Transaction :=
  { version := 0, sender := 1, fee := 1, nonce := 0, hasSignature := false,
    data := TransactionData.Registration }

/-- `block0` with a wrong header height, to exercise a failing check. -/
def blockBadHeight : CompleteBlock :=
  { block0 with block := { block0.block with height := 5 } }

deriving instance DecidableEq for Except

/-- A concrete stored-peer record with every field populated. -/
def peer0 : StoredPeer :=
  { first_seen := 11
    last_seen := 22
    last_connection_try := 33
    fail_count := 200
    local_port := 60000
    temp_ban_until := some 77
    state := StoredPeerState.Blacklist }

/-- A Burn transaction from the miner account, used on `chain1`. -/
def txBurn : Transaction :=
  { version := 0, sender := 99, fee := 0, nonce := 0, hasSignature := true,
    data := TransactionData.Burn 5 }

/-- Two chain states that agree on every field except possibly the
account map. -/
def eqExceptAccounts (c c' : Chain) : Prop :=
  c'.blocks = c.blocks ∧ c'.height = c.height ∧ c'.supply = c.supply ∧
    c'.top_hash = c.top_hash ∧ c'.difficulty = c.difficulty ∧
    c'.mempool = c.mempool ∧ c'.dev_address = c.dev_address

/-- `chain1` after executing `txBurn`: the miner pays 5, nonce bumps. -/
def chainB : Chain :=
  { chain1 with accounts := [(99, { balance := 251, nonce := 1 }),
                             (1, { balance := 0, nonce := 0 }),
                             (2, { balance := 0, nonce := 0 })] }

/-! ## Theorems -/

/-- Claim C3 counterexample: with the concrete build `cfg0`
(`MAX_SUPPLY = 1024`, `EMISSION_SPEED_FACTOR = 2`) the reward is already
zero at supply 1023, which is not `MAX_SUPPLY`; the claimed equivalence
`get_block_reward s = 0 iff s = MAX_SUPPLY` fails whenever the emission
shift is nonzero. -/
theorem get_block_reward_zero_below_max :
    get_block_reward cfg0 1023 = 0 ∧ (1023 : Nat) ≠ cfg0.MAX_SUPPLY := by decide

/-- Claim C3 (amended): `get_block_reward` is non-increasing in the
supply, and for supplies up to `MAX_SUPPLY` it is zero exactly when the
remaining supply `MAX_SUPPLY - s` is below `2 ^ EMISSION_SPEED_FACTOR`
(for a zero shift this is exactly `s = MAX_SUPPLY`). -/
theorem get_block_reward_monotone_zero (cfg : Config) (s1 s2 : Nat) (h : s1 ≤ s2) :
    get_block_reward cfg s2 ≤ get_block_reward cfg s1 ∧
      (∀ s, s ≤ cfg.MAX_SUPPLY →
        (get_block_reward cfg s = 0 ↔
          cfg.MAX_SUPPLY - s < 2 ^ cfg.EMISSION_SPEED_FACTOR)) := by
  constructor
  · unfold get_block_reward
    simp only [Nat.shiftRight_eq_div_pow]
    exact Nat.div_le_div_right (Nat.sub_le_sub_left h _)
  · intro s _
    unfold get_block_reward
    simp only [Nat.shiftRight_eq_div_pow]
    exact Nat.div_eq_zero_iff (Nat.pos_pow_of_pos _ (by decide))

/-- Witness for C3's theorem at the concrete build `cfg0` and supplies
0 and 1. -/
theorem get_block_reward_monotone_zero_witness :
    (0 : Nat) ≤ 1 ∧
      (get_block_reward cfg0 1 ≤ get_block_reward cfg0 0 ∧
        (∀ s, s ≤ cfg0.MAX_SUPPLY →
          (get_block_reward cfg0 s = 0 ↔
            cfg0.MAX_SUPPLY - s < 2 ^ cfg0.EMISSION_SPEED_FACTOR))) :=
  ⟨by decide, get_block_reward_monotone_zero cfg0 0 1 (by decide)⟩

/-- After `k <= LIMIT` fail-count calls on a fresh Graylist record, the
record has `fail_count = k` and still no temp ban: the ban test reads the
count before incrementing, so it cannot fire while the pre-call count is
below `LIMIT`. -/
theorem iterate_fail_count_below (LIMIT BAN now : Nat) (h1 : 0 < LIMIT) (h2 : LIMIT ≤ 255) :
    ∀ k, k ≤ LIMIT →
      iterate_increase_fail_count LIMIT BAN now
          (some (StoredPeer.new now 0 StoredPeerState.Graylist)) k
        = some { StoredPeer.new now 0 StoredPeerState.Graylist with fail_count := k } := by
  intro k
  induction k with
  | zero => intro _; rfl
  | succ k ih =>
    intro hk
    have hklt : k < LIMIT := Nat.lt_of_succ_le hk
    rw [iterate_increase_fail_count, ih (Nat.le_of_succ_le hk)]
    have hc : ¬(¬k = 0 ∧ k % LIMIT = 0) := by
      rcases Nat.eq_zero_or_pos k with h0 | h0
      · simp [h0]
      · rw [Nat.mod_eq_of_lt hklt]
        intro hcontra
        exact hcontra.1 (by omega)
    simp [increase_fail_count_for_stored_peer, StoredPeer.new, hc,
      Nat.mod_eq_of_lt (show k + 1 < 256 by omega)]

/-- Claim C5 (amended): starting from a fresh stored record, repeated
`increase_fail_count_for_stored_peer(ip, temp_ban=true)` calls with no
time passing set `temp_ban_until = now + PEER_TEMP_BAN_TIME_ON_CONNECT`
exactly at the `(PEER_FAIL_TO_CONNECT_LIMIT + 1)`-th call, and at no call
up to and including the `PEER_FAIL_TO_CONNECT_LIMIT`-th: the ban test
reads `fail_count` before the increment, so it first fires when the
pre-call count has already reached the limit. -/
theorem temp_ban_cycle_fires_at_limit_plus_one (LIMIT BAN now : Nat)
    (h1 : 0 < LIMIT) (h2 : LIMIT ≤ 255) :
    (∀ k, k ≤ LIMIT →
      (iterate_increase_fail_count LIMIT BAN now
          (some (StoredPeer.new now 0 StoredPeerState.Graylist)) k).map
        StoredPeer.temp_ban_until = some none) ∧
    (iterate_increase_fail_count LIMIT BAN now
        (some (StoredPeer.new now 0 StoredPeerState.Graylist)) (LIMIT + 1)).map
      StoredPeer.temp_ban_until = some (some (now + BAN)) := by
  constructor
  · intro k hk
    rw [iterate_fail_count_below LIMIT BAN now h1 h2 k hk]
    rfl
  · rw [iterate_increase_fail_count,
      iterate_fail_count_below LIMIT BAN now h1 h2 LIMIT (Nat.le_refl LIMIT)]
    have hc : ¬LIMIT = 0 ∧ LIMIT % LIMIT = 0 := ⟨by omega, Nat.mod_self LIMIT⟩
    simp [increase_fail_count_for_stored_peer, StoredPeer.new, hc]

/-- Witness for C5's theorem at `LIMIT = 3`, `BAN = 600`, `now = 1000`. -/
theorem temp_ban_cycle_fires_at_limit_plus_one_witness :
    ((0 : Nat) < 3 ∧ (3 : Nat) ≤ 255) ∧
      ((∀ k, k ≤ 3 →
        (iterate_increase_fail_count 3 600 1000
            (some (StoredPeer.new 1000 0 StoredPeerState.Graylist)) k).map
          StoredPeer.temp_ban_until = some none) ∧
      (iterate_increase_fail_count 3 600 1000
          (some (StoredPeer.new 1000 0 StoredPeerState.Graylist)) (3 + 1)).map
        StoredPeer.temp_ban_until = some (some (1000 + 600))) :=
  ⟨⟨by decide, by decide⟩,
    temp_ban_cycle_fires_at_limit_plus_one 3 600 1000 (by decide) (by decide)⟩

/-- Claim C5 counterexample: with `PEER_FAIL_TO_CONNECT_LIMIT = 3` the
third call on a fresh record leaves `temp_ban_until = none`, not
`now + PEER_TEMP_BAN_TIME_ON_CONNECT` as claimed. -/
theorem temp_ban_cycle_not_at_limit :
    (iterate_increase_fail_count 3 600 1000
        (some (StoredPeer.new 1000 0 StoredPeerState.Graylist)) 3).map
      StoredPeer.temp_ban_until = some none ∧
      some (none : Option Nat) ≠ some (some (1000 + 600)) := by decide

/-- Claim C6: `temp_ban_address(ip, seconds)` on an ip with no stored
record creates a fresh Graylist record whose `temp_ban_until` is `none`:
the ban `now + seconds` is never written in the create branch, contrary
to the function's stated purpose. -/
theorem temp_ban_address_create_branch_sets_no_ban :
    (temp_ban_address 1000 none 600).map StoredPeer.temp_ban_until = some none ∧
      some (none : Option Nat) ≠ some (some (1000 + 600)) := by decide

/-- Claim C10: on any chain satisfying the `height = blocks.length`
invariant (which holds in every reachable state), `get_block_at_height`
called with the current height passes the `height > self.get_height()`
guard and indexes one past the end of `blocks`: a Rust panic, not the
`InvalidBlockHeight` error. -/
theorem get_block_at_height_panics_at_current_height (c : Chain)
    (h : c.height = c.blocks.length) :
    get_block_at_height c c.height = Except.error BlockchainError.rustPanic := by
  unfold get_block_at_height
  rw [if_neg (lt_irrefl c.height)]
  rw [List.get?_eq_none.mpr (le_of_eq h.symm)]

/-- Witness for C10's theorem on the fresh chain (height 0, no blocks). -/
theorem get_block_at_height_panics_at_current_height_witness :
    chain0.height = chain0.blocks.length ∧
      get_block_at_height chain0 chain0.height = Except.error BlockchainError.rustPanic :=
  ⟨by decide, get_block_at_height_panics_at_current_height chain0 (by decide)⟩

/-- Claim C9: whenever any header, transaction-set or miner-tx check of
`add_new_block` fails (that is, `blockChecks` returns an error), the call
returns that error with the chain state -- blocks, height, supply, top
hash, difficulty, accounts and mempool -- exactly as it was: every
mutation of the source happens after the last of those checks. -/
theorem add_new_block_check_error_leaves_state (cfg : Config) (O : Oracle) (now : Nat)
    (c : Chain) (b : CompleteBlock) (e : BlockchainError)
    (h : blockChecks cfg O now c b = Except.error e) :
    add_new_block cfg O now c b = (Except.error e, c) := by
  unfold add_new_block
  rw [h]

/-- Witness for C9's theorem: `blockBadHeight` fails the height check on
the fresh chain and the state is returned untouched. -/
theorem add_new_block_check_error_leaves_state_witness :
    blockChecks cfg0 O0 10 chain0 blockBadHeight
        = Except.error (BlockchainError.InvalidBlockHeight 0 5) ∧
      add_new_block cfg0 O0 10 chain0 blockBadHeight
        = (Except.error (BlockchainError.InvalidBlockHeight 0 5), chain0) :=
  ⟨by decide,
    add_new_block_check_error_leaves_state cfg0 O0 10 chain0 blockBadHeight
      (BlockchainError.InvalidBlockHeight 0 5) (by decide)⟩

/-- Little-endian width-`w` round-trip for values below `256 ^ w`. -/
theorem readLE_writeLE (w : Nat) : ∀ (n : Nat) (rest : List Nat), n < 256 ^ w →
    readLE w (writeLE w n ++ rest) = Except.ok (n, rest) := by
  induction w with
  | zero =>
    intro n rest h
    have : n = 0 := by simpa using Nat.lt_one_iff.mp (by simpa using h)
    subst this
    rfl
  | succ w ih =>
    intro n rest h
    have hdiv : n / 256 < 256 ^ w := by
      rw [Nat.div_lt_iff_lt_mul (by decide : 0 < 256)]
      calc n < 256 ^ (w + 1) := h
        _ = 256 ^ w * 256 := by rw [Nat.pow_succ]
    rw [writeLE, List.cons_append, readLE, ih (n / 256) rest hdiv]
    have heq : n % 256 + 256 * (n / 256) = n := by omega
    simp [heq]

/-- `Option<u64>` round-trip for payloads that fit in a u64. -/
theorem readOptU64_writeOptU64 (o : Option Nat) (rest : List Nat)
    (h : ∀ t, o = some t → t < 2 ^ 64) :
    readOptU64 (writeOptU64 o ++ rest) = Except.ok (o, rest) := by
  cases o with
  | none => rfl
  | some t =>
    have ht : t < 256 ^ 8 := by
      have := h t rfl
      calc t < 2 ^ 64 := this
        _ = 256 ^ 8 := by norm_num
    rw [writeOptU64, List.cons_append, readOptU64, readLE_writeLE 8 t rest ht]

/-- `StoredPeerState` one-byte round-trip. -/
theorem StoredPeerState.read_write (s : StoredPeerState) (rest : List Nat) :
    StoredPeerState.read (s.write ++ rest) = Except.ok (s, rest) := by
  cases s <;> rfl

/-- Claim C7: every well-formed `StoredPeer` survives the write/read
round-trip exactly, and a state byte other than 0, 1 or 2 is a read
error (`InvalidValue`). -/
theorem storedPeer_roundtrip (p : StoredPeer) (hp : p.Wf) (b : Nat) (hb : 3 ≤ b) :
    StoredPeer.read (StoredPeer.write p) = Except.ok (p, []) ∧
      StoredPeerState.read [b] = Except.error ReaderErr.invalidValue := by
  obtain ⟨h1, h2, h3, h4, h5, h6⟩ := hp
  have e64 : (2 : Nat) ^ 64 = 256 ^ 8 := by norm_num
  have e16 : (2 : Nat) ^ 16 = 256 ^ 2 := by norm_num
  constructor
  · rw [StoredPeer.write, StoredPeer.read]
    simp only [List.append_assoc]
    rw [readLE_writeLE 8 p.first_seen _ (e64 ▸ h1)]
    dsimp only
    rw [readLE_writeLE 8 p.last_seen _ (e64 ▸ h2)]
    dsimp only
    rw [readLE_writeLE 8 p.last_connection_try _ (e64 ▸ h3)]
    dsimp only
    rw [readLE_writeLE 1 p.fail_count _ (by simpa using h4)]
    dsimp only
    rw [readLE_writeLE 2 p.local_port _ (e16 ▸ h5)]
    dsimp only
    rw [readOptU64_writeOptU64 p.temp_ban_until _ h6]
    dsimp only
    rw [show p.state.write = p.state.write ++ [] from (List.append_nil _).symm,
      StoredPeerState.read_write p.state []]
  · match b, hb with
    | n + 3, _ => rfl

/-- Witness for C7's theorem: the concrete record `peer0` and the state
byte 3. -/
theorem storedPeer_roundtrip_witness :
    peer0.Wf ∧ (3 : Nat) ≤ 3 ∧
      (StoredPeer.read (StoredPeer.write peer0) = Except.ok (peer0, []) ∧
        StoredPeerState.read [3] = Except.error ReaderErr.invalidValue) :=
  ⟨by refine ⟨by decide, by decide, by decide, by decide, by decide, ?_⟩
      intro t ht
      simp [peer0] at ht
      omega,
    by decide,
    storedPeer_roundtrip peer0
      ⟨by decide, by decide, by decide, by decide, by decide, by
        intro t ht
        simp [peer0] at ht
        omega⟩ 3 (by decide)⟩

/-- Claim C4 (amended): with nonce checks enabled, a Registration
transaction passes `verify_transaction_with_hash` exactly when its fee is
zero, its sender has no registered account, and its hash satisfies
`REGISTRATION_DIFFICULTY` (in the model, registrations carry no
signature obligation). -/
theorem registration_verify_iff (cfg : Config) (O : Oracle) (c : Chain) (tx : Transaction)
    (h : Hash) (hreg : tx.data = TransactionData.Registration) :
    verify_transaction_with_hash cfg O c tx h false = Except.ok () ↔
      (tx.fee = 0 ∧ findAcc c.accounts tx.sender = none ∧
        O.checkDifficulty h cfg.REGISTRATION_DIFFICULTY = true) := by
  unfold verify_transaction_with_hash
  rw [hreg]
  by_cases hf : tx.fee = 0 <;>
    cases hacc : findAcc c.accounts tx.sender <;>
      cases hd : O.checkDifficulty h cfg.REGISTRATION_DIFFICULTY <;>
        simp [requireSignature, TransactionData.isRegistration, TransactionData.isCoinbase,
          hf, hacc, hd]

/-- Witness for C4's theorem: the fee-less Registration `txReg1` on the
fresh chain. -/
theorem registration_verify_iff_witness :
    txReg1.data = TransactionData.Registration ∧
      (verify_transaction_with_hash cfg0 O0 chain0 txReg1 5 false = Except.ok () ↔
        (txReg1.fee = 0 ∧ findAcc chain0.accounts txReg1.sender = none ∧
          O0.checkDifficulty 5 cfg0.REGISTRATION_DIFFICULTY = true)) :=
  ⟨rfl, registration_verify_iff cfg0 O0 chain0 txReg1 5 rfl⟩

/-- Claim C4 counterexample: `txRegFee` (a Registration with fee 1,
unregistered sender, hash passing the registration PoW) is rejected, so
acceptance is not equivalent to account-absence plus PoW alone. -/
theorem registration_verify_iff_fails_on_fee :
    ¬(verify_transaction_with_hash cfg0 O0 chain0 txRegFee 5 false = Except.ok () ↔
      (findAcc chain0.accounts txRegFee.sender = none ∧
        O0.checkDifficulty 5 cfg0.REGISTRATION_DIFFICULTY = true)) := by decide

/-! ### Account-map lemmas -/

theorem updAcc_of_none (l : List (PublicKey × Account)) (k : PublicKey) (v : Account)
    (h : findAcc l k = none) : updAcc l k v = l := by
  induction l with
  | nil => rfl
  | cons p rest ih =>
    obtain ⟨k0, a0⟩ := p
    by_cases hk : k0 = k
    · simp [findAcc, hk] at h
    · simp only [findAcc, if_neg hk] at h
      simp [updAcc, hk, ih h]

theorem findAcc_updAcc_self (l : List (PublicKey × Account)) (k : PublicKey) (v a : Account)
    (h : findAcc l k = some a) : findAcc (updAcc l k v) k = some v := by
  induction l with
  | nil => simp [findAcc] at h
  | cons p rest ih =>
    obtain ⟨k0, a0⟩ := p
    by_cases hk : k0 = k
    · simp [findAcc, updAcc, hk]
    · simp only [findAcc, if_neg hk] at h
      simp [findAcc, updAcc, hk, ih h]

theorem findAcc_updAcc_other (l : List (PublicKey × Account)) (k k2 : PublicKey) (v : Account)
    (h : k2 ≠ k) : findAcc (updAcc l k v) k2 = findAcc l k2 := by
  induction l with
  | nil => rfl
  | cons p rest ih =>
    obtain ⟨k0, a0⟩ := p
    by_cases hk : k0 = k
    · subst hk
      simp [findAcc, updAcc, Ne.symm h]
    · simp only [updAcc, if_neg hk]
      by_cases hk2 : k0 = k2 <;> simp [findAcc, hk2, ih]

theorem findAcc_updAcc_none (l : List (PublicKey × Account)) (k k2 : PublicKey) (v : Account)
    (h : findAcc l k2 = none) : findAcc (updAcc l k v) k2 = none := by
  by_cases hk : k2 = k
  · subst hk
    rw [updAcc_of_none l k2 v h]
    exact h
  · rw [findAcc_updAcc_other l k k2 v hk]
    exact h

theorem sumBal_cons (p : PublicKey × Account) (l : List (PublicKey × Account)) :
    sumBal (p :: l) = p.2.balance + sumBal l := by
  simp [sumBal]

theorem sumBal_updAcc (l : List (PublicKey × Account)) (k : PublicKey) (v a : Account)
    (h : findAcc l k = some a) : sumBal (updAcc l k v) + a.balance = sumBal l + v.balance := by
  induction l with
  | nil => simp [findAcc] at h
  | cons p rest ih =>
    obtain ⟨k0, a0⟩ := p
    by_cases hk : k0 = k
    · simp only [findAcc, if_pos hk] at h
      cases h
      simp [updAcc, hk, sumBal_cons]
      omega
    · simp only [findAcc, if_neg hk] at h
      have := ih h
      simp only [updAcc, if_neg hk, sumBal_cons]
      omega

theorem sumBal_append_single (l : List (PublicKey × Account)) (k : PublicKey) (v : Account) :
    sumBal (l ++ [(k, v)]) = sumBal l + v.balance := by
  simp [sumBal]

theorem findAcc_append_single_of_none (l : List (PublicKey × Account)) (k k2 : PublicKey)
    (v : Account) (h : findAcc l k2 = none) :
    findAcc (l ++ [(k, v)]) k2 = if k = k2 then some v else none := by
  induction l with
  | nil => rfl
  | cons p rest ih =>
    obtain ⟨k0, a0⟩ := p
    by_cases hk : k0 = k2
    · simp [findAcc, hk] at h
    · simp only [findAcc, if_neg hk] at h
      simp [findAcc, hk, ih h]

theorem findAcc_append_single_of_some (l : List (PublicKey × Account)) (k k2 : PublicKey)
    (v a : Account) (h : findAcc l k2 = some a) : findAcc (l ++ [(k, v)]) k2 = some a := by
  induction l with
  | nil => simp [findAcc] at h
  | cons p rest ih =>
    obtain ⟨k0, a0⟩ := p
    by_cases hk : k0 = k2
    · simp only [findAcc, if_pos hk] at h
      simp [findAcc, hk, h]
    · simp only [findAcc, if_neg hk] at h
      simp [findAcc, hk, ih h]

/-! ### Execution lemmas -/

/-- A successful credit loop only rewrites `accounts`: balances grow by
the credited amounts (so the balance sum grows by `total' - total`),
missing accounts stay missing, and no nonce changes. -/
theorem creditOutputs_ok :
    ∀ (outs : List TxOut) (c : Chain) (total total' : Nat) (c' : Chain),
    creditOutputs c outs total = (Except.ok (), total', c') →
    c' = { c with accounts := c'.accounts } ∧
      sumBal c'.accounts + total = sumBal c.accounts + total' ∧
      (∀ x, findAcc c.accounts x = none → findAcc c'.accounts x = none) ∧
      (∀ x, (findAcc c'.accounts x).map Account.nonce
        = (findAcc c.accounts x).map Account.nonce) := by
  intro outs
  induction outs with
  | nil =>
    intro c total total' c' h
    rw [creditOutputs] at h
    simp only [Prod.mk.injEq] at h
    obtain ⟨-, h2, h3⟩ := h
    subst h2
    subst h3
    exact ⟨rfl, rfl, fun x hx => hx, fun x => rfl⟩
  | cons o rest ih =>
    intro c total total' c' h
    rw [creditOutputs] at h
    cases hacc : findAcc c.accounts o.dest <;> rw [hacc] at h <;> dsimp only at h
    · exact absurd h (by simp)
    · next a =>
      obtain ⟨hsc, hsum, hnone, hnonce⟩ := ih _ _ _ _ h
      dsimp only at hsc hsum hnone hnonce
      have hupd := sumBal_updAcc c.accounts o.dest
        { a with balance := a.balance + o.amount } a hacc
      dsimp only at hupd
      refine ⟨hsc.trans rfl, by omega, ?_, ?_⟩
      · intro x hx
        exact hnone x (findAcc_updAcc_none c.accounts o.dest x _ hx)
      · intro x
        rw [hnonce x]
        by_cases hx : x = o.dest
        · subst hx
          rw [findAcc_updAcc_self c.accounts o.dest _ a hacc, hacc]
          rfl
        · rw [findAcc_updAcc_other c.accounts o.dest x _ hx]

/-- A successful debit-and-bump resolves the sender, has enough balance,
and rewrites exactly that account. -/
theorem debitAndBumpNonce_ok (c : Chain) (s : PublicKey) (amt : Nat) (c' : Chain)
    (h : debitAndBumpNonce c s amt = (Except.ok (), c')) :
    ∃ a, findAcc c.accounts s = some a ∧ amt ≤ a.balance ∧
      c' = { c with accounts := (updAcc c.accounts s
        { balance := a.balance - amt, nonce := a.nonce + 1 }) } := by
  unfold debitAndBumpNonce at h
  cases hacc : findAcc c.accounts s <;> rw [hacc] at h <;> dsimp only at h
  · simp at h
  · next a =>
    by_cases hb : a.balance < amt
    · rw [if_pos hb] at h
      simp at h
    · rw [if_neg hb] at h
      simp only [Prod.mk.injEq] at h
      exact ⟨a, rfl, by omega, h.2.symm⟩

theorem eqExceptAccounts_refl (c : Chain) : eqExceptAccounts c c :=
  ⟨rfl, rfl, rfl, rfl, rfl, rfl, rfl⟩

theorem eqExceptAccounts_trans {c1 c2 c3 : Chain} (h1 : eqExceptAccounts c1 c2)
    (h2 : eqExceptAccounts c2 c3) : eqExceptAccounts c1 c3 := by
  obtain ⟨a1, a2, a3, a4, a5, a6, a7⟩ := h1
  obtain ⟨b1, b2, b3, b4, b5, b6, b7⟩ := h2
  exact ⟨b1.trans a1, b2.trans a2, b3.trans a3, b4.trans a4, b5.trans a5,
    b6.trans a6, b7.trans a7⟩

theorem eqExceptAccounts_of_upd {c c' : Chain} (h : c' = { c with accounts := c'.accounts }) :
    eqExceptAccounts c c' := by
  refine ⟨?_, ?_, ?_, ?_, ?_, ?_, ?_⟩ <;> rw [h]

theorem insAcc_of_none (l : List (PublicKey × Account)) (k : PublicKey) (v : Account)
    (h : findAcc l k = none) : insAcc l k v = l ++ [(k, v)] := by
  simp [insAcc, h]

/-- Executing a `Normal` or `Burn` transaction: only accounts change,
missing accounts stay missing, the sender's nonce is bumped by exactly
one, and (for `Normal`) the balance sum drops by exactly the fee. -/
theorem execute_ok_spend (cfg : Config) (c : Chain) (tx : Transaction) (c' : Chain)
    (hnc : tx.data.isCoinbase = false) (hnr : tx.data.isRegistration = false)
    (h : execute_transaction cfg c tx = (Except.ok (), c')) :
    eqExceptAccounts c c' ∧
      (∀ x, findAcc c.accounts x = none → findAcc c'.accounts x = none) ∧
      (∃ a a2, findAcc c.accounts tx.sender = some a ∧
        findAcc c'.accounts tx.sender = some a2 ∧ a2.nonce = a.nonce + 1) ∧
      (tx.data.isBurn = false → sumBal c'.accounts + tx.fee = sumBal c.accounts) := by
  cases hdata : tx.data with
  | Registration => rw [hdata] at hnr; simp [TransactionData.isRegistration] at hnr
  | Coinbase br fr => rw [hdata] at hnc; simp [TransactionData.isCoinbase] at hnc
  | Burn amt =>
    rw [execute_transaction, hdata] at h
    obtain ⟨a, hacc, hle, hc⟩ := debitAndBumpNonce_ok c tx.sender (amt + tx.fee) c' h
    subst hc
    refine ⟨eqExceptAccounts_of_upd rfl, ?_, ?_, ?_⟩
    · intro x hx
      exact findAcc_updAcc_none c.accounts tx.sender x _ hx
    · exact ⟨a, _, hacc, findAcc_updAcc_self c.accounts tx.sender _ a hacc, rfl⟩
    · intro habs
      simp [TransactionData.isBurn] at habs
  | Normal outs =>
    rw [execute_transaction, hdata] at h
    dsimp only at h
    rcases hco : creditOutputs c outs tx.fee with ⟨r, total1, cmid⟩
    rw [hco] at h
    cases r with
    | error e =>
      dsimp only at h
      simp at h
    | ok u =>
      cases u
      dsimp only at h
      obtain ⟨hsc1, hsum1, hnone1, hnonce1⟩ := creditOutputs_ok outs c tx.fee total1 cmid hco
      obtain ⟨a2, hacc2, hle2, hc⟩ := debitAndBumpNonce_ok cmid tx.sender total1 c' h
      subst hc
      have heq1 : eqExceptAccounts c cmid := eqExceptAccounts_of_upd hsc1
      refine ⟨eqExceptAccounts_trans heq1 (eqExceptAccounts_of_upd rfl), ?_, ?_, ?_⟩
      · intro x hx
        exact findAcc_updAcc_none cmid.accounts tx.sender x _ (hnone1 x hx)
      · have hmapeq := hnonce1 tx.sender
        rw [hacc2] at hmapeq
        cases hacc0 : findAcc c.accounts tx.sender with
        | none => rw [hacc0] at hmapeq; simp at hmapeq
        | some a0 =>
          rw [hacc0] at hmapeq
          simp at hmapeq
          refine ⟨a0, _, rfl, findAcc_updAcc_self cmid.accounts tx.sender _ a2 hacc2, ?_⟩
          simp [hmapeq]
      · intro _
        have hupd := sumBal_updAcc cmid.accounts tx.sender
          { balance := a2.balance - total1, nonce := a2.nonce + 1 } a2 hacc2
        dsimp only at hupd ⊢
        omega

/-- Executing a Registration: always succeeds, inserts the sender at
`{balance 0, nonce 0}`, and changes nothing else. -/
theorem execute_ok_registration (cfg : Config) (c : Chain) (tx : Transaction) (c' : Chain)
    (hdata : tx.data = TransactionData.Registration)
    (h : execute_transaction cfg c tx = (Except.ok (), c')) :
    c'.accounts = insAcc c.accounts tx.sender { balance := 0, nonce := 0 } ∧
      eqExceptAccounts c c' := by
  rw [execute_transaction, hdata] at h
  dsimp only at h
  simp only [Prod.mk.injEq] at h
  obtain ⟨-, h2⟩ := h
  subst h2
  exact ⟨rfl, eqExceptAccounts_of_upd rfl⟩

/-- Executing the Coinbase miner transaction: only accounts change, the
balance sum grows by exactly `block_reward + fee_reward` (the dev cut is
carved out of the reward, not added on top), and missing accounts stay
missing. -/
theorem execute_ok_coinbase (cfg : Config) (c : Chain) (tx : Transaction) (c' : Chain)
    (br fr : Nat) (hdata : tx.data = TransactionData.Coinbase br fr)
    (h : execute_transaction cfg c tx = (Except.ok (), c')) :
    eqExceptAccounts c c' ∧
      sumBal c'.accounts = sumBal c.accounts + br + fr ∧
      (∀ x, findAcc c.accounts x = none → findAcc c'.accounts x = none) := by
  rw [execute_transaction, hdata] at h
  dsimp only at h
  by_cases hdev : cfg.DEV_FEE_PERCENT ≠ 0
  · rw [if_pos hdev] at h
    cases hdacc : findAcc c.accounts c.dev_address <;> rw [hdacc] at h <;> dsimp only at h
    · simp at h
    · next devAcc =>
      by_cases hlt : br < br * cfg.DEV_FEE_PERCENT / 100
      · rw [if_pos hlt] at h
        simp at h
      · rw [if_neg hlt] at h
        cases hmacc : findAcc (updAcc c.accounts c.dev_address
            { devAcc with balance := devAcc.balance + br * cfg.DEV_FEE_PERCENT / 100 })
            tx.sender <;> rw [hmacc] at h <;> dsimp only at h
        · simp at h
        · next a =>
          simp only [Prod.mk.injEq] at h
          obtain ⟨-, h2⟩ := h
          subst h2
          have hdev1 := sumBal_updAcc c.accounts c.dev_address
            { devAcc with balance := devAcc.balance + br * cfg.DEV_FEE_PERCENT / 100 }
            devAcc hdacc
          have hmin1 := sumBal_updAcc _ tx.sender
            { a with balance := a.balance + (br - br * cfg.DEV_FEE_PERCENT / 100) + fr }
            a hmacc
          dsimp only at hdev1 hmin1
          refine ⟨eqExceptAccounts_of_upd rfl, ?_, ?_⟩
          · dsimp only
            omega
          · intro x hx
            exact findAcc_updAcc_none _ tx.sender x _
              (findAcc_updAcc_none c.accounts c.dev_address x _ hx)
  · rw [if_neg hdev] at h
    cases hmacc : findAcc c.accounts tx.sender <;> rw [hmacc] at h <;> dsimp only at h
    · simp at h
    · next a =>
      simp only [Prod.mk.injEq] at h
      obtain ⟨-, h2⟩ := h
      subst h2
      have hmin1 := sumBal_updAcc c.accounts tx.sender
        { a with balance := a.balance + br + fr } a hmacc
      dsimp only at hmin1
      refine ⟨eqExceptAccounts_of_upd rfl, ?_, ?_⟩
      · dsimp only
        omega
      · intro x hx
        exact findAcc_updAcc_none c.accounts tx.sender x _ hx

theorem isRegistration_eq {d : TransactionData} (h : d.isRegistration = true) :
    d = TransactionData.Registration := by
  cases d <;> simp [TransactionData.isRegistration] at h ⊢

theorem regSender_eq_none (tx : Transaction) (h : tx.data.isRegistration = false) :
    regSender tx = none := by
  rw [regSender]
  cases hd : tx.data
  · rw [hd] at h
    simp [TransactionData.isRegistration] at h
  all_goals rfl

theorem regSender_eq_some (tx : Transaction) (h : tx.data = TransactionData.Registration) :
    regSender tx = some tx.sender := by
  rw [regSender, h]

/-- Running the execution loop over coinbase-free, burn-free transactions
whose registrations are fee-less, pairwise-distinct and fresh: only
accounts change, the balance sum drops by exactly the total fees, and an
account that was missing and is not registered by the list stays
missing. -/
theorem execTxsRun_ok_facts (cfg : Config) :
    ∀ (txs : List Transaction) (c c' : Chain),
    (∀ tx ∈ txs, tx.data.isCoinbase = false ∧
      (tx.data.isRegistration = true → tx.fee = 0) ∧ tx.data.isBurn = false) →
    (txs.filterMap regSender).Nodup →
    (∀ s ∈ txs.filterMap regSender, findAcc c.accounts s = none) →
    execTxsRun cfg c txs = (Except.ok (), c') →
    eqExceptAccounts c c' ∧
      sumBal c'.accounts + feeSum txs = sumBal c.accounts ∧
      (∀ x, findAcc c.accounts x = none → x ∉ txs.filterMap regSender →
        findAcc c'.accounts x = none) := by
  intro txs
  induction txs with
  | nil =>
    intro c c' _ _ _ h
    rw [execTxsRun] at h
    simp only [Prod.mk.injEq] at h
    obtain ⟨-, h2⟩ := h
    subst h2
    exact ⟨eqExceptAccounts_refl c, by simp [feeSum], fun x hx _ => hx⟩
  | cons tx rest ih =>
    intro c c' hflags hnodup habs h
    have hflag1 := hflags tx (List.mem_cons_self tx rest)
    have hflagrest : ∀ t ∈ rest, t.data.isCoinbase = false ∧
        (t.data.isRegistration = true → t.fee = 0) ∧ t.data.isBurn = false :=
      fun t ht => hflags t (List.mem_cons_of_mem tx ht)
    rw [execTxsRun] at h
    rcases hexec : execute_transaction cfg c tx with ⟨r, cmid⟩
    rw [hexec] at h
    cases r with
    | error e =>
      dsimp only at h
      simp at h
    | ok u =>
      cases u
      dsimp only at h
      by_cases hreg : tx.data.isRegistration = true
      · -- Registration: the sender is inserted fresh at balance 0
        have hdata := isRegistration_eq hreg
        have hsend := regSender_eq_some tx hdata
        rw [List.filterMap_cons, hsend] at hnodup habs
        have hnodup2 : (rest.filterMap regSender).Nodup := hnodup.of_cons
        have hsender0 : findAcc c.accounts tx.sender = none :=
          habs tx.sender (List.mem_cons_self _ _)
        have hsender_notin : tx.sender ∉ rest.filterMap regSender := by
          intro hmem
          exact (List.nodup_cons.mp hnodup).1 hmem
        obtain ⟨hins, heq1⟩ := execute_ok_registration cfg c tx cmid hdata hexec
        have hins2 : cmid.accounts = c.accounts ++ [(tx.sender, { balance := 0, nonce := 0 })] := by
          rw [hins, insAcc_of_none c.accounts tx.sender _ hsender0]
        have habs2 : ∀ s ∈ rest.filterMap regSender, findAcc cmid.accounts s = none := by
          intro s hs
          have hs0 : findAcc c.accounts s = none := habs s (List.mem_cons_of_mem _ hs)
          rw [hins2, findAcc_append_single_of_none c.accounts tx.sender s _ hs0,
            if_neg (by intro hcontra; subst hcontra; exact hsender_notin hs)]
        obtain ⟨heq2, hsum2, hnone2⟩ := ih cmid c' hflagrest hnodup2 habs2 h
        have hsummid : sumBal cmid.accounts = sumBal c.accounts := by
          rw [hins2, sumBal_append_single]
          simp
        have hfee0 : tx.fee = 0 := hflag1.2.1 hreg
        refine ⟨eqExceptAccounts_trans heq1 heq2, ?_, ?_⟩
        · simp only [feeSum, List.map_cons, List.sum_cons, hfee0] at *
          omega
        · intro x hx hxnot
          rw [List.filterMap_cons, hsend] at hxnot
          have hxne : x ≠ tx.sender := by
            intro hcontra
            exact hxnot (hcontra ▸ List.mem_cons_self _ _)
          have hx2 : findAcc cmid.accounts x = none := by
            rw [hins2, findAcc_append_single_of_none c.accounts tx.sender x _ hx,
              if_neg (fun hcontra => hxne hcontra.symm)]
          exact hnone2 x hx2 (fun hmem => hxnot (List.mem_cons_of_mem _ hmem))
      · -- Normal (Burn is excluded by the flags)
        have hregf : tx.data.isRegistration = false := by
          cases hr : tx.data.isRegistration
          · rfl
          · exact absurd hr hreg
        have hsend := regSender_eq_none tx hregf
        rw [List.filterMap_cons, hsend] at hnodup habs ⊢
        obtain ⟨heq1, hnone1, -, hsum1⟩ :=
          execute_ok_spend cfg c tx cmid hflag1.1 hregf hexec
        have hsummid := hsum1 hflag1.2.2
        have habs2 : ∀ s ∈ rest.filterMap regSender, findAcc cmid.accounts s = none :=
          fun s hs => hnone1 s (habs s hs)
        obtain ⟨heq2, hsum2, hnone2⟩ := ih cmid c' hflagrest hnodup habs2 h
        refine ⟨eqExceptAccounts_trans heq1 heq2, ?_, ?_⟩
        · simp only [feeSum, List.map_cons, List.sum_cons] at *
          omega
        · intro x hx hxnot
          exact hnone2 x (hnone1 x hx) hxnot

/-- A Registration that passes verification (nonce checks enabled) is
fee-less and its sender is unregistered. -/
theorem verify_ok_registration_facts (cfg : Config) (O : Oracle) (c : Chain)
    (tx : Transaction) (h : Hash) (hreg : tx.data.isRegistration = true)
    (hok : verify_transaction_with_hash cfg O c tx h false = Except.ok ()) :
    tx.fee = 0 ∧ findAcc c.accounts tx.sender = none := by
  have hdata := isRegistration_eq hreg
  unfold verify_transaction_with_hash at hok
  rw [hdata] at hok
  by_cases hf : tx.fee = 0
  · cases hacc : findAcc c.accounts tx.sender
    · exact ⟨hf, rfl⟩
    · rw [hacc] at hok
      simp [requireSignature, TransactionData.isRegistration,
        TransactionData.isCoinbase, hf] at hok
  · simp [requireSignature, TransactionData.isRegistration,
      TransactionData.isCoinbase, hf] at hok

/-- Everything a successful transaction-set loop guarantees: the cache
collects the transaction hashes in order, the fee total accumulates, the
hashes are pairwise distinct, fresh relative to the incoming cache and
all members of the header list, no transaction is a Coinbase, every
transaction verifies, and the Registration senders are pairwise distinct
and fresh relative to the incoming registration set. -/
theorem txChecksLoop_ok_facts (cfg : Config) (O : Oracle) (c : Chain) (hashes : List Hash) :
    ∀ (txs : List Transaction) (cache : List Hash) (regs : List PublicKey)
      (fees size : Nat) (cache' : List Hash) (fees' size' : Nat),
    txChecksLoop cfg O c hashes txs cache regs fees size
      = Except.ok (cache', fees', size') →
    cache' = cache ++ txs.map O.txHash ∧
      fees' = fees + feeSum txs ∧
      (txs.map O.txHash).Nodup ∧
      (∀ h ∈ txs.map O.txHash, h ∉ cache) ∧
      (∀ tx ∈ txs, O.txHash tx ∈ hashes) ∧
      (∀ tx ∈ txs, tx.data.isCoinbase = false) ∧
      (∀ tx ∈ txs, verify_transaction_with_hash cfg O c tx (O.txHash tx) false
        = Except.ok ()) ∧
      (txs.filterMap regSender).Nodup ∧
      (∀ s ∈ txs.filterMap regSender, s ∉ regs) := by
  intro txs
  induction txs with
  | nil =>
    intro cache regs fees size cache' fees' size' h
    rw [txChecksLoop] at h
    simp only [Except.ok.injEq, Prod.mk.injEq] at h
    obtain ⟨h1, h2, h3⟩ := h
    subst h1; subst h2; subst h3
    simp [feeSum]
  | cons tx rest ih =>
    intro cache regs fees size cache' fees' size' h
    rw [txChecksLoop] at h
    by_cases hmem : O.txHash tx ∈ cache
    · rw [if_pos hmem] at h; simp at h
    · rw [if_neg hmem] at h
      by_cases hin : O.txHash tx ∉ hashes
      · rw [if_pos hin] at h; simp at h
      · rw [if_neg hin] at h
        push_neg at hin
        cases hdata : tx.data with
        | Coinbase br fr =>
          rw [hdata] at h
          simp at h
        | Registration =>
          rw [hdata] at h
          dsimp only at h
          by_cases hrmem : tx.sender ∈ regs
          · rw [if_pos hrmem] at h; simp at h
          · rw [if_neg hrmem] at h
            cases hv : verify_transaction_with_hash cfg O c tx (O.txHash tx) false with
            | error e => rw [hv] at h; simp at h
            | ok u =>
              cases u
              rw [hv] at h
              dsimp only at h
              obtain ⟨c1, c2, c3, c4, c5, c6, c7, c8, c9⟩ :=
                ih (cache ++ [O.txHash tx]) (tx.sender :: regs)
                  (fees + tx.fee) (size + O.txSize tx) cache' fees' size' h
              have hsend : regSender tx = some tx.sender := regSender_eq_some tx hdata
              refine ⟨by rw [c1, List.append_assoc]; rfl,
                by rw [c2]; simp [feeSum]; omega, ?_, ?_, ?_, ?_, ?_, ?_, ?_⟩
              · simp only [List.map_cons, List.nodup_cons]
                refine ⟨fun hcontra => ?_, c3⟩
                exact (c4 _ hcontra) (by simp)
              · intro h2 hh2
                simp only [List.map_cons, List.mem_cons] at hh2
                rcases hh2 with hh2 | hh2
                · subst hh2; exact hmem
                · intro hc
                  exact (c4 _ hh2) (List.mem_append_left _ hc)
              · intro t ht
                rcases List.mem_cons.mp ht with ht | ht
                · subst ht; exact hin
                · exact c5 t ht
              · intro t ht
                rcases List.mem_cons.mp ht with ht | ht
                · subst ht; rw [hdata]; rfl
                · exact c6 t ht
              · intro t ht
                rcases List.mem_cons.mp ht with ht | ht
                · subst ht; exact hv
                · exact c7 t ht
              · rw [List.filterMap_cons, hsend]
                simp only [List.nodup_cons]
                refine ⟨fun hcontra => ?_, c8⟩
                exact (c9 _ hcontra) (by simp)
              · rw [List.filterMap_cons, hsend]
                intro s hs
                rcases List.mem_cons.mp hs with hs | hs
                · subst hs; exact hrmem
                · intro hc
                  exact (c9 _ hs) (List.mem_cons_of_mem _ hc)
        | Normal outs =>
          rw [hdata] at h
          dsimp only at h
          cases hv : verify_transaction_with_hash cfg O c tx (O.txHash tx) false with
          | error e => rw [hv] at h; simp at h
          | ok u =>
            cases u
            rw [hv] at h
            dsimp only at h
            obtain ⟨c1, c2, c3, c4, c5, c6, c7, c8, c9⟩ :=
              ih (cache ++ [O.txHash tx]) regs
                (fees + tx.fee) (size + O.txSize tx) cache' fees' size' h
            have hsend : regSender tx = none := regSender_eq_none tx (by rw [hdata]; rfl)
            refine ⟨by rw [c1, List.append_assoc]; rfl,
              by rw [c2]; simp [feeSum]; omega, ?_, ?_, ?_, ?_, ?_, ?_, ?_⟩
            · simp only [List.map_cons, List.nodup_cons]
              refine ⟨fun hcontra => ?_, c3⟩
              exact (c4 _ hcontra) (by simp)
            · intro h2 hh2
              simp only [List.map_cons, List.mem_cons] at hh2
              rcases hh2 with hh2 | hh2
              · subst hh2; exact hmem
              · intro hc
                exact (c4 _ hh2) (List.mem_append_left _ hc)
            · intro t ht
              rcases List.mem_cons.mp ht with ht | ht
              · subst ht; exact hin
              · exact c5 t ht
            · intro t ht
              rcases List.mem_cons.mp ht with ht | ht
              · subst ht; rw [hdata]; rfl
              · exact c6 t ht
            · intro t ht
              rcases List.mem_cons.mp ht with ht | ht
              · subst ht; exact hv
              · exact c7 t ht
            · rw [List.filterMap_cons, hsend]
              exact c8
            · rw [List.filterMap_cons, hsend]
              exact c9
        | Burn amt =>
          rw [hdata] at h
          dsimp only at h
          cases hv : verify_transaction_with_hash cfg O c tx (O.txHash tx) false with
          | error e => rw [hv] at h; simp at h
          | ok u =>
            cases u
            rw [hv] at h
            dsimp only at h
            obtain ⟨c1, c2, c3, c4, c5, c6, c7, c8, c9⟩ :=
              ih (cache ++ [O.txHash tx]) regs
                (fees + tx.fee) (size + O.txSize tx) cache' fees' size' h
            have hsend : regSender tx = none := regSender_eq_none tx (by rw [hdata]; rfl)
            refine ⟨by rw [c1, List.append_assoc]; rfl,
              by rw [c2]; simp [feeSum]; omega, ?_, ?_, ?_, ?_, ?_, ?_, ?_⟩
            · simp only [List.map_cons, List.nodup_cons]
              refine ⟨fun hcontra => ?_, c3⟩
              exact (c4 _ hcontra) (by simp)
            · intro h2 hh2
              simp only [List.map_cons, List.mem_cons] at hh2
              rcases hh2 with hh2 | hh2
              · subst hh2; exact hmem
              · intro hc
                exact (c4 _ hh2) (List.mem_append_left _ hc)
            · intro t ht
              rcases List.mem_cons.mp ht with ht | ht
              · subst ht; exact hin
              · exact c5 t ht
            · intro t ht
              rcases List.mem_cons.mp ht with ht | ht
              · subst ht; rw [hdata]; rfl
              · exact c6 t ht
            · intro t ht
              rcases List.mem_cons.mp ht with ht | ht
              · subst ht; exact hv
              · exact c7 t ht
            · rw [List.filterMap_cons, hsend]
              exact c8
            · rw [List.filterMap_cons, hsend]
              exact c9

/-- A successful miner check pins the miner tx to a Coinbase whose
`block_reward` is the emission at the current supply and whose
`fee_reward` is the included-fee total. -/
theorem minerChecks_ok_facts (cfg : Config) (c : Chain) (b : CompleteBlock) (total_fees : Nat)
    (h : minerChecks cfg c b total_fees = Except.ok ()) :
    b.block.miner_tx.data
      = TransactionData.Coinbase (get_block_reward cfg c.supply) total_fees := by
  unfold minerChecks at h
  cases hdata : b.block.miner_tx.data with
  | Coinbase br fr =>
    rw [hdata] at h
    dsimp only at h
    by_cases h1 : (findAcc c.accounts b.block.miner_tx.sender).isNone = true
    · rw [if_pos h1] at h; simp at h
    · rw [if_neg h1] at h
      by_cases h2 : b.block.miner_tx.fee ≠ 0
      · rw [if_pos h2] at h; simp at h
      · rw [if_neg h2] at h
        by_cases h3 : b.block.miner_tx.hasSignature = true
        · rw [if_pos h3] at h; simp at h
        · rw [if_neg h3] at h
          by_cases h4 : br ≠ get_block_reward cfg c.supply ∨ fr ≠ total_fees
          · rw [if_pos h4] at h; simp at h
          · rw [if_neg h4] at h
            push_neg at h4
            rw [h4.1, h4.2]
  | Registration => rw [hdata] at h; simp at h
  | Normal outs => rw [hdata] at h; simp at h
  | Burn amt => rw [hdata] at h; simp at h

/-- Everything a successful `blockChecks` guarantees about the block and
the pre-state. -/
theorem blockChecks_ok_facts (cfg : Config) (O : Oracle) (now : Nat) (c : Chain)
    (b : CompleteBlock) (total_fees : Nat)
    (h : blockChecks cfg O now c b = Except.ok total_fees) :
    headerChecks O now c b = Except.ok () ∧
      b.block.txs_hashes.length = b.transactions.length ∧
      (b.transactions.map O.txHash).Nodup ∧
      (∀ tx ∈ b.transactions, O.txHash tx ∈ b.block.txs_hashes) ∧
      (∀ tx ∈ b.transactions, tx.data.isCoinbase = false) ∧
      (∀ tx ∈ b.transactions,
        verify_transaction_with_hash cfg O c tx (O.txHash tx) false = Except.ok ()) ∧
      (b.transactions.filterMap regSender).Nodup ∧
      (∀ s ∈ b.transactions.filterMap regSender, findAcc c.accounts s = none) ∧
      (∀ tx ∈ b.transactions, tx.data.isRegistration = true → tx.fee = 0) ∧
      total_fees = feeSum b.transactions ∧
      b.block.miner_tx.data
        = TransactionData.Coinbase (get_block_reward cfg c.supply) total_fees := by
  unfold blockChecks at h
  cases hhc : headerChecks O now c b with
  | error e => rw [hhc] at h; simp at h
  | ok u =>
    cases u
    rw [hhc] at h
    dsimp only at h
    by_cases hlen : b.block.txs_hashes.length ≠ b.transactions.length
    · rw [if_pos hlen] at h; simp at h
    · rw [if_neg hlen] at h
      push_neg at hlen
      cases hloop : txChecksLoop cfg O c b.block.txs_hashes b.transactions [] [] 0 0 with
      | error e => rw [hloop] at h; simp at h
      | ok res =>
        rcases res with ⟨cache, fees, size⟩
        rw [hloop] at h
        dsimp only at h
        obtain ⟨c1, c2, c3, c4, c5, c6, c7, c8, c9⟩ :=
          txChecksLoop_ok_facts cfg O c b.block.txs_hashes b.transactions
            [] [] 0 0 cache fees size hloop
        by_cases hsz : O.blockSize b + size > cfg.MAX_BLOCK_SIZE
        · rw [if_pos hsz] at h; simp at h
        · rw [if_neg hsz] at h
          by_cases hcard : cache.length ≠ b.transactions.length ∨
              cache.length ≠ b.block.txs_hashes.length
          · rw [if_pos hcard] at h; simp at h
          · rw [if_neg hcard] at h
            cases hmc : minerChecks cfg c b fees with
            | error e => rw [hmc] at h; simp at h
            | ok u2 =>
              cases u2
              rw [hmc] at h
              dsimp only at h
              have hfees : fees = total_fees := by
                simpa using h
              subst hfees
              have hregfacts : ∀ s ∈ b.transactions.filterMap regSender,
                  findAcc c.accounts s = none := by
                intro s hs
                obtain ⟨tx, htx, hsome⟩ := List.mem_filterMap.mp hs
                have hdr : tx.data = TransactionData.Registration ∧ tx.sender = s := by
                  rw [regSender] at hsome
                  cases hd : tx.data <;> rw [hd] at hsome <;> simp at hsome
                  exact ⟨rfl, hsome⟩
                obtain ⟨hdr1, hdr2⟩ := hdr
                have := verify_ok_registration_facts cfg O c tx (O.txHash tx)
                  (by rw [hdr1]; rfl) (c7 tx htx)
                rw [hdr2] at this
                exact this.2
              have hregfee : ∀ tx ∈ b.transactions,
                  tx.data.isRegistration = true → tx.fee = 0 := by
                intro tx htx hreg
                exact (verify_ok_registration_facts cfg O c tx (O.txHash tx)
                  hreg (c7 tx htx)).1
              refine ⟨rfl, hlen, c3, ?_, c6, c7, c8, hregfacts, hregfee,
                by rw [c2]; simp, minerChecks_ok_facts cfg c b fees hmc⟩
              exact c5

/-- Decomposition of a successful `add_new_block`: the checks passed, the
transactions and the miner tx executed, and the commit bumped height,
stored the block hash, added the pre-execution emission to the supply and
appended the block. -/
theorem add_new_block_ok_parts (cfg : Config) (O : Oracle) (now : Nat) (c : Chain)
    (b : CompleteBlock) (c' : Chain)
    (h : add_new_block cfg O now c b = (Except.ok (), c')) :
    ∃ total_fees c2 c3,
      blockChecks cfg O now c b = Except.ok total_fees ∧
      execTxsRun cfg { c with mempool := removeMempoolTxs c.mempool b.block.txs_hashes }
        b.transactions = (Except.ok (), c2) ∧
      execute_transaction cfg c2 b.block.miner_tx = (Except.ok (), c3) ∧
      c'.accounts = c3.accounts ∧ c'.height = c3.height + 1 ∧
      c'.supply = c3.supply + get_block_reward cfg c.supply ∧
      c'.blocks = c3.blocks ++ [b] := by
  unfold add_new_block at h
  cases hbc : blockChecks cfg O now c b with
  | error e => rw [hbc] at h; simp at h
  | ok fees =>
    rw [hbc] at h
    dsimp only at h
    rcases h2 : execTxsRun cfg
        { c with mempool := removeMempoolTxs c.mempool b.block.txs_hashes }
        b.transactions with ⟨r2, c2⟩
    rw [h2] at h
    cases r2 with
    | error e => dsimp only at h; simp at h
    | ok u =>
      cases u
      dsimp only at h
      rcases h3 : execute_transaction cfg c2 b.block.miner_tx with ⟨r3, c3⟩
      rw [h3] at h
      cases r3 with
      | error e => dsimp only at h; simp at h
      | ok u3 =>
        cases u3
        dsimp only at h
        refine ⟨fees, c2, c3, rfl, rfl, h3, ?_⟩
        by_cases hgt : c3.height > 2
        · rw [if_pos hgt] at h
          cases hgb : get_block_at_height c3 (c3.height - 1) with
          | error e => rw [hgb] at h; dsimp only at h; simp at h
          | ok prev =>
            rw [hgb] at h
            dsimp only at h
            by_cases hgt0 : c3.height > 0
            · rw [if_pos hgt0] at h
              cases hgb2 : get_block_at_height
                  { c3 with difficulty := O.calculateDifficulty prev b }
                  (c3.height - 1) with
              | error e => rw [hgb2] at h; dsimp only at h; simp at h
              | ok top =>
                rw [hgb2] at h
                dsimp only at h
                simp only [Prod.mk.injEq] at h
                obtain ⟨-, hc⟩ := h
                subst hc
                exact ⟨rfl, rfl, rfl, rfl⟩
            · rw [if_neg hgt0] at h
              dsimp only at h
              simp only [Prod.mk.injEq] at h
              obtain ⟨-, hc⟩ := h
              subst hc
              exact ⟨rfl, rfl, rfl, rfl⟩
        · rw [if_neg hgt] at h
          dsimp only at h
          by_cases hgt0 : c3.height > 0
          · rw [if_pos hgt0] at h
            cases hgb2 : get_block_at_height c3 (c3.height - 1) with
            | error e => rw [hgb2] at h; dsimp only at h; simp at h
            | ok top =>
              rw [hgb2] at h
              dsimp only at h
              simp only [Prod.mk.injEq] at h
              obtain ⟨-, hc⟩ := h
              subst hc
              exact ⟨rfl, rfl, rfl, rfl⟩
          · rw [if_neg hgt0] at h
            dsimp only at h
            simp only [Prod.mk.injEq] at h
            obtain ⟨-, hc⟩ := h
            subst hc
            exact ⟨rfl, rfl, rfl, rfl⟩

/-- Claim C2 (amended): in every successfully applied block each
transaction appears exactly once (the list is duplicate-free, as is its
hash image) and `tx_hashes` is a permutation of the transactions' hashes;
the source checks membership, not positional equality, so the shared
order claimed for the two lists need not hold. -/
theorem block_txs_match_header_hashes (cfg : Config) (O : Oracle) (now : Nat) (c : Chain)
    (b : CompleteBlock) (c' : Chain)
    (h : add_new_block cfg O now c b = (Except.ok (), c')) :
    b.transactions.Nodup ∧ (b.transactions.map O.txHash).Nodup ∧
      b.block.txs_hashes.Perm (b.transactions.map O.txHash) := by
  obtain ⟨fees, c2, c3, hbc, -, -, -⟩ := add_new_block_ok_parts cfg O now c b c' h
  obtain ⟨-, hlen, hnodup, hmem, -, -, -, -, -, -, -⟩ :=
    blockChecks_ok_facts cfg O now c b fees hbc
  have hsub : (b.transactions.map O.txHash) ⊆ b.block.txs_hashes := by
    intro x hx
    obtain ⟨tx, htx, hhash⟩ := List.mem_map.mp hx
    exact hhash ▸ hmem tx htx
  have hsubperm := hnodup.subperm hsub
  have hperm := (hsubperm.perm_of_length_le (by rw [List.length_map]; omega)).symm
  exact ⟨hnodup.of_map _, hnodup, hperm⟩

/-- Witness for C2's theorem: the concrete block `block0` applied to the
fresh chain. -/
theorem block_txs_match_header_hashes_witness :
    add_new_block cfg0 O0 10 chain0 block0 = (Except.ok (), chain1) ∧
      (block0.transactions.Nodup ∧ (block0.transactions.map O0.txHash).Nodup ∧
        block0.block.txs_hashes.Perm (block0.transactions.map O0.txHash)) :=
  ⟨by decide, block_txs_match_header_hashes cfg0 O0 10 chain0 block0 chain1 (by decide)⟩

/-- Claim C2 counterexample: `block0` is accepted although its
transaction list hashes to `[1, 2]` while its header lists `[2, 1]`:
`transactions[i]` does not hash to `tx_hashes[i]`. -/
theorem block_txs_order_differs :
    add_new_block cfg0 O0 10 chain0 block0 = (Except.ok (), chain1) ∧
      block0.transactions.map O0.txHash ≠ block0.block.txs_hashes := by decide

/-- Claim C8 (amended): executing an applied non-Coinbase,
non-Registration transaction (`Normal` or `Burn`) bumps the sender's
nonce by exactly one; a Registration instead creates the account at nonce
0 without any increment. -/
theorem nonce_bumped_exactly_once (cfg : Config) (c : Chain) (tx : Transaction) (c' : Chain)
    (a : Account) (hnc : tx.data.isCoinbase = false) (hnr : tx.data.isRegistration = false)
    (hacc : findAcc c.accounts tx.sender = some a)
    (h : execute_transaction cfg c tx = (Except.ok (), c')) :
    ∃ a2, findAcc c'.accounts tx.sender = some a2 ∧ a2.nonce = a.nonce + 1 := by
  obtain ⟨-, -, ⟨a0, a2, hacc0, hacc2, hn⟩, -⟩ := execute_ok_spend cfg c tx c' hnc hnr h
  rw [hacc] at hacc0
  cases hacc0
  exact ⟨a2, hacc2, hn⟩

/-- Witness for C8's theorem: the Burn `txBurn` executed on `chain1`. -/
theorem nonce_bumped_exactly_once_witness :
    txBurn.data.isCoinbase = false ∧ txBurn.data.isRegistration = false ∧
      findAcc chain1.accounts txBurn.sender = some { balance := 256, nonce := 0 } ∧
      execute_transaction cfg0 chain1 txBurn = (Except.ok (), chainB) ∧
      (∃ a2, findAcc chainB.accounts txBurn.sender = some a2 ∧
        a2.nonce = ({ balance := 256, nonce := 0 } : Account).nonce + 1) :=
  ⟨rfl, rfl, by decide, by decide,
    nonce_bumped_exactly_once cfg0 chain1 txBurn chainB { balance := 256, nonce := 0 }
      rfl rfl (by decide) (by decide)⟩

/-- Claim C8 counterexample: the Registration `txReg1` is a non-Coinbase
transaction that is verified and applied on the fresh chain, yet it
leaves its sender's nonce at 0 (the account is created, not
incremented), so not every applied non-Coinbase transaction raises the
sender's nonce by one. -/
theorem registration_applies_without_nonce_bump :
    txReg1.data.isCoinbase = false ∧
      verify_transaction_with_hash cfg0 O0 chain0 txReg1 (O0.txHash txReg1) false
        = Except.ok () ∧
      findAcc chain0.accounts txReg1.sender = none ∧
      (execute_transaction cfg0 chain0 txReg1).1 = Except.ok () ∧
      findAcc (execute_transaction cfg0 chain0 txReg1).2.accounts txReg1.sender
        = some { balance := 0, nonce := 0 } := by decide

theorem sumRewards_append_single (l : List CompleteBlock) (b : CompleteBlock) :
    sumRewards (l ++ [b]) = sumRewards l + coinbaseReward b := by
  simp [sumRewards]

/-- One successful burn-free `add_new_block` preserves the conservation
invariant and appends exactly the applied block. -/
theorem add_new_block_ok_inv (cfg : Config) (O : Oracle) (now : Nat) (c : Chain)
    (b : CompleteBlock) (c' : Chain)
    (hh : c.height = c.blocks.length)
    (hs : c.supply = sumRewards c.blocks)
    (hb : sumBal c.accounts = c.supply)
    (hnb : ∀ tx ∈ b.transactions, tx.data.isBurn = false)
    (h : add_new_block cfg O now c b = (Except.ok (), c')) :
    (c'.height = c'.blocks.length ∧ c'.supply = sumRewards c'.blocks ∧
      sumBal c'.accounts = c'.supply) ∧ c'.blocks = c.blocks ++ [b] := by
  obtain ⟨fees, c2, c3, hbc, hex, hmx, hacc', hht', hsup', hblk'⟩ :=
    add_new_block_ok_parts cfg O now c b c' h
  obtain ⟨-, -, -, -, hnc, -, hregnodup, hregabs, hregfee, hfees, hminer⟩ :=
    blockChecks_ok_facts cfg O now c b fees hbc
  have hflags : ∀ tx ∈ b.transactions, tx.data.isCoinbase = false ∧
      (tx.data.isRegistration = true → tx.fee = 0) ∧ tx.data.isBurn = false :=
    fun tx htx => ⟨hnc tx htx, hregfee tx htx, hnb tx htx⟩
  obtain ⟨heq2, hsum2, -⟩ := execTxsRun_ok_facts cfg b.transactions
    { c with mempool := removeMempoolTxs c.mempool b.block.txs_hashes } c2
    hflags hregnodup hregabs hex
  obtain ⟨heq3, hsum3, -⟩ := execute_ok_coinbase cfg c2 b.block.miner_tx c3
    (get_block_reward cfg c.supply) fees hminer hmx
  obtain ⟨hbl2, hht2, hsp2, -, -, -, -⟩ := heq2
  obtain ⟨hbl3, hht3, hsp3, -, -, -, -⟩ := heq3
  dsimp only at hbl2 hht2 hsp2 hsum2
  have hcreward : coinbaseReward b = get_block_reward cfg c.supply := by
    rw [coinbaseReward, hminer]
  have hblocks : c'.blocks = c.blocks ++ [b] := by
    rw [hblk', hbl3, hbl2]
  refine ⟨⟨?_, ?_, ?_⟩, hblocks⟩
  · rw [hht', hht3, hht2, hblocks, hh, List.length_append]
    rfl
  · rw [hsup', hsp3, hsp2, hblocks, sumRewards_append_single, hcreward, hs]
  · rw [hacc', hsup', hsp3, hsp2]
    omega

/-- A burn-free successful run of `applyBlocks` from any state satisfying
the conservation invariant ends in a state satisfying it, with exactly
the given blocks appended. -/
theorem applyBlocks_inv (cfg : Config) (O : Oracle) :
    ∀ (l : List (Nat × CompleteBlock)) (c c' : Chain),
    (∀ p ∈ l, ∀ tx ∈ (Prod.snd p).transactions, tx.data.isBurn = false) →
    (c.height = c.blocks.length ∧ c.supply = sumRewards c.blocks ∧
      sumBal c.accounts = c.supply) →
    applyBlocks cfg O c l = Except.ok c' →
    (c'.height = c'.blocks.length ∧ c'.supply = sumRewards c'.blocks ∧
      sumBal c'.accounts = c'.supply) ∧ c'.blocks = c.blocks ++ l.map Prod.snd := by
  intro l
  induction l with
  | nil =>
    intro c c' _ hinv h
    rw [applyBlocks] at h
    simp only [Except.ok.injEq] at h
    subst h
    simpa using hinv
  | cons p rest ih =>
    intro c c' hnb hinv h
    obtain ⟨now, b⟩ := p
    rw [applyBlocks] at h
    rcases hstep : add_new_block cfg O now c b with ⟨r1, c1⟩
    rw [hstep] at h
    cases r1 with
    | error e => dsimp only at h; simp at h
    | ok u =>
      cases u
      dsimp only at h
      obtain ⟨hinv1, hblk1⟩ := add_new_block_ok_inv cfg O now c b c1
        hinv.1 hinv.2.1 hinv.2.2
        (hnb (now, b) (List.mem_cons_self _ _)) hstep
      obtain ⟨hinv2, hblk2⟩ := ih c1 c'
        (fun q hq => hnb q (List.mem_cons_of_mem _ hq)) hinv1 h
      refine ⟨hinv2, ?_⟩
      rw [hblk2, hblk1]
      simp

/-- Claim C1: after any sequence of successful `add_new_block` calls from
the fresh chain in which no applied transaction is a Burn, the height
equals the number of applied blocks, the supply equals the sum of the
applied blocks' rewards, and the account balances sum to the supply. -/
theorem conservation_after_blocks (cfg : Config) (O : Oracle) (dev : PublicKey)
    (l : List (Nat × CompleteBlock)) (c' : Chain)
    (hnb : ∀ p ∈ l, ∀ tx ∈ (Prod.snd p).transactions, tx.data.isBurn = false)
    (h : applyBlocks cfg O (fresh_chain cfg dev) l = Except.ok c') :
    c'.height = l.length ∧ c'.blocks = l.map Prod.snd ∧
      c'.supply = sumRewards c'.blocks ∧ sumBal c'.accounts = c'.supply := by
  obtain ⟨⟨h1, h2, h3⟩, hblk⟩ := applyBlocks_inv cfg O l (fresh_chain cfg dev) c' hnb
    (by refine ⟨rfl, rfl, ?_⟩; simp [fresh_chain, sumBal]) h
  have hblk2 : c'.blocks = l.map Prod.snd := by simpa using hblk
  refine ⟨?_, hblk2, h2, h3⟩
  rw [h1, hblk2, List.length_map]

/-- Witness for C1's theorem: the single burn-free block `block0` applied
to the fresh chain with dev key 99. -/
theorem conservation_after_blocks_witness :
    (∀ p ∈ [((10 : Nat), block0)], ∀ tx ∈ (Prod.snd p).transactions,
      tx.data.isBurn = false) ∧
      applyBlocks cfg0 O0 (fresh_chain cfg0 99) [(10, block0)] = Except.ok chain1 ∧
      (chain1.height = [((10 : Nat), block0)].length ∧
        chain1.blocks = [((10 : Nat), block0)].map Prod.snd ∧
        chain1.supply = sumRewards chain1.blocks ∧
        sumBal chain1.accounts = chain1.supply) :=
  ⟨by decide, by decide,
    conservation_after_blocks cfg0 O0 99 [(10, block0)] chain1 (by decide) (by decide)⟩
